import Mathlib

/-!
# Verification of the neurina chess engine against its specification

This file gives a shallow embedding, in Lean 4, of the parts of the
neurina source that the specification talks about, and proves (or refutes)
the specified properties.  Every definition is translated from the Rust
source file named in its doc comment; the board, move and move-chain
primitives come from the external `chess` crate (not part of the
repository), so those are modelled from the specification and marked
`Modelled from the spec:` in their doc comments.

Scalar values that the code stores as `f32` are modelled as rationals
(for the exact ±1.0/0.0 encoding layer) or as reals (for the network
arithmetic, whose specification-level meaning is real arithmetic).
-/

namespace Neurina

/-! ## Time control (src/src/engine/engine.rs)

`std::time::Duration` is modelled as a pair of seconds and nanoseconds,
with the arithmetic of the Rust standard library: `checked_div`
divides seconds and nanoseconds separately and carries the remainders,
`checked_add`/`checked_sub` carry and borrow at `10^9`, and the order is
the lexicographic order on (seconds, nanoseconds), which on normalised
values coincides with comparison of total nanoseconds. -/

def nanosPerSec : ℕ := 1000000000

/-- Model of `std::time::Duration`: seconds and (normalised) nanoseconds. -/
structure Duration where
  secs : ℕ
  nanos : ℕ
deriving DecidableEq

/-- Total nanoseconds; comparison of durations is comparison of this. -/
def Duration.toNanos (d : Duration) : ℕ := d.secs * nanosPerSec + d.nanos

/-- `Duration::new`, which normalises nanoseconds into seconds. -/
def Duration.new (secs nanos : ℕ) : Duration :=
  ⟨secs + nanos / nanosPerSec, nanos % nanosPerSec⟩

/-- `Duration::from_millis`. -/
def Duration.fromMillis (m : ℕ) : Duration :=
  ⟨m / 1000, (m % 1000) * 1000000⟩

/-- `Duration::ZERO`. -/
def Duration.zero : Duration := ⟨0, 0⟩

/-- `Duration / u32` as the Rust standard library computes it:
seconds and nanoseconds are divided separately and the two remainders are
recombined and divided again. -/
def Duration.div (d : Duration) (rhs : ℕ) : Duration :=
  let secs := d.secs / rhs
  let extraSecs := d.secs % rhs
  let nanos := d.nanos / rhs
  let extraNanos := d.nanos % rhs
  Duration.new secs (nanos + (extraSecs * nanosPerSec + extraNanos) / rhs)

/-- `Duration + Duration` (carrying nanoseconds into seconds). -/
def Duration.add (a b : Duration) : Duration :=
  Duration.new (a.secs + b.secs) (a.nanos + b.nanos)

/-- `Duration - Duration` (the code only subtracts when the result is
nonnegative); borrows a second when the nanoseconds underflow. -/
def Duration.sub (a b : Duration) : Duration :=
  if b.nanos ≤ a.nanos then ⟨a.secs - b.secs, a.nanos - b.nanos⟩
  else ⟨a.secs - b.secs - 1, a.nanos + nanosPerSec - b.nanos⟩

/-- Model of `engine::TimeControl`. -/
inductive TimeControl where
  | Level (mps : ℕ) (inc : Duration)
  | Fixed (time : Duration)

/-- `Engine::calculate_timeout` (src/src/engine/engine.rs lines 159-191).
The engine state it reads is passed explicitly: the time control, the
remaining time, the `move_count_to_go` override, and the move-chain
length (read only when `mps > 0`). -/
def calculateTimeout (tc : TimeControl) (remainingTime : Duration)
    (moveCountToGo : ℕ) (chainLen : ℕ) : Duration :=
  match tc with
  | .Level mps inc =>
      let mctg : ℕ :=
        if moveCountToGo > 0 then moveCountToGo
        else if mps > 0 then mps - (chainLen / 2) % mps
        else 30
      let timeout := (remainingTime.div mctg).add (inc.div 2)
      if timeout.toNanos ≥ remainingTime.toNanos then
        if remainingTime.toNanos > (Duration.fromMillis 500).toNanos then
          remainingTime.sub (Duration.fromMillis 500)
        else Duration.zero
      else timeout
  | .Fixed time =>
      if time.toNanos > (Duration.fromMillis 500).toNanos then
        time.sub (Duration.fromMillis 500)
      else Duration.zero

/-- C7 counterexample: with `TimeControl::Level(0, 0)`, remaining time
400 ms and `move_count_to_go = 0`, `calculate_timeout` does *not* return
the zero timeout the claim states: the computed `400ms/30 ≈ 13.3ms` is
smaller than the remaining time, so the clamp never fires. -/
theorem calculateTimeout_level_400ms_not_zero :
    calculateTimeout (.Level 0 Duration.zero) (Duration.fromMillis 400) 0 0 ≠
      Duration.zero := by decide

/-- C7 amended: `Fixed(300ms)` does give a zero timeout, while
`Level(0, 0)` with 400 ms remaining and `move_count_to_go = 0` gives
`400ms / 30 = 13333333ns` (the fallback moves-to-go is 30 and the clamp
does not fire because the quotient is below the remaining time); this
holds for every move-chain length since `mps = 0` never reads it. -/
theorem calculateTimeout_scenarios (chainLen : ℕ) :
    calculateTimeout (.Fixed (Duration.fromMillis 300)) (Duration.fromMillis 400) 0 chainLen =
        Duration.zero ∧
      calculateTimeout (.Level 0 Duration.zero) (Duration.fromMillis 400) 0 chainLen =
        ⟨0, 13333333⟩ := by
  refine ⟨rfl, ?_⟩
  have h : calculateTimeout (.Level 0 Duration.zero) (Duration.fromMillis 400) 0 chainLen =
      calculateTimeout (.Level 0 Duration.zero) (Duration.fromMillis 400) 0 0 := rfl
  rw [h]
  decide

/-! ## Colors, coordinates and cells

The `chess` crate is an external collaborator of the repository; the
small part of it the encoding layer observes is modelled from the spec. -/

/-- Modelled from the spec: the two chess colors (`chess::Color`);
`White` is the first color, `Black` the second. -/
inductive Color where
  | White
  | Black
deriving DecidableEq

/-- `Color::inv` — Modelled from the spec: the opposite color. -/
def Color.inv : Color → Color
  | .White => .Black
  | .Black => .White

/-- `coord_to_index` (src/src/shared/utils.rs lines 13-24): the square
index itself for the first color, the vertically reflected index for the
second color. -/
def coordToIndex (idx : ℕ) (color : Color) : ℕ :=
  match color with
  | .White => idx
  | .Black =>
      let rankIdx := idx >>> 3
      let fileIdx := idx &&& 7
      ((7 - rankIdx) <<< 3) ||| fileIdx

/-! ## Index converter (src/src/shared/index_converter.rs)

The move-index table is a `64 × 64 × 5` array of `i32` initialised to
`-1`; it is modelled as nested lists with the same write sequence as
`IndexConverter::new`. -/

/-- `MAILBOX` (src/src/shared/index_converter.rs): 10×12 mailbox board,
`-1` on the border, the square index elsewhere. -/
def MAILBOX : List ℤ :=
  [-1, -1, -1, -1, -1, -1, -1, -1, -1, -1,
   -1, -1, -1, -1, -1, -1, -1, -1, -1, -1,
   -1,  0,  1,  2,  3,  4,  5,  6,  7, -1,
   -1,  8,  9, 10, 11, 12, 13, 14, 15, -1,
   -1, 16, 17, 18, 19, 20, 21, 22, 23, -1,
   -1, 24, 25, 26, 27, 28, 29, 30, 31, -1,
   -1, 32, 33, 34, 35, 36, 37, 38, 39, -1,
   -1, 40, 41, 42, 43, 44, 45, 46, 47, -1,
   -1, 48, 49, 50, 51, 52, 53, 54, 55, -1,
   -1, 56, 57, 58, 59, 60, 61, 62, 63, -1,
   -1, -1, -1, -1, -1, -1, -1, -1, -1, -1,
   -1, -1, -1, -1, -1, -1, -1, -1, -1, -1]

/-- `MAILBOX64`: the mailbox coordinate of each of the 64 squares. -/
def MAILBOX64 : List ℤ :=
  [21, 22, 23, 24, 25, 26, 27, 28,
   31, 32, 33, 34, 35, 36, 37, 38,
   41, 42, 43, 44, 45, 46, 47, 48,
   51, 52, 53, 54, 55, 56, 57, 58,
   61, 62, 63, 64, 65, 66, 67, 68,
   71, 72, 73, 74, 75, 76, 77, 78,
   81, 82, 83, 84, 85, 86, 87, 88,
   91, 92, 93, 94, 95, 96, 97, 98]

/-- `QUEEN_STEPS120`. -/
def QUEEN_STEPS120 : List ℤ := [-11, -10, -9, -1, 1, 9, 10, 11]

/-- `KNIGHT_STEPS120`. -/
def KNIGHT_STEPS120 : List ℤ := [-21, -19, -12, -8, 8, 12, 19, 21]

/-- `MAILBOX[i as usize]`; indices produced by the walk always lie in
range, out-of-range reads return the border value `-1`. -/
def mailboxAt (i : ℤ) : ℤ :=
  if 0 ≤ i ∧ i < 120 then MAILBOX.getD i.toNat (-1) else -1

/-- The `tab_move_indices` table: 64 origins × 64 destinations × 5
promotion variants.  The construction loop of `IndexConverter::new`
only ever writes `tab_move_indices[from][..]` for the origin `from` of
its outer iteration, so the table is modelled row by row: each origin's
64×5 row is produced by its own iteration of the outer loop, with
`move_count` threaded through the origins in source order. -/
def MoveTab := List (List (List ℤ))

/-- Read `tab_move_indices[a][b][c]` (`-1` out of range, like the
initialised array). -/
def MoveTab.get3 (t : MoveTab) (a b c : ℕ) : ℤ :=
  (((t : List (List (List ℤ))).getD a []).getD b []).getD c (-1)

/-- One origin's row of the table: 64 destination cells of 5 variants. -/
def MoveRow := List (List ℤ)

/-- Write `tab_move_indices[from][b][c] = v` inside origin `from`'s row. -/
def MoveRow.setCell (row : MoveRow) (b c : ℕ) (v : ℤ) : MoveRow :=
  let row : List (List ℤ) := row
  row.set b ((row.getD b []).set c v)

/-- The body of the `while MAILBOX[to120] != -1` ray walk of
`IndexConverter::new` for one queen step, threading
`(move_count, row of tab_move_indices[from])`.  A ray holds at most 7
squares; the fuel (always started at 8) only bounds the walk that the
mailbox border terminates in the source.  The source's two identical
promotion branches (origin rank 1 stepping −11, −10 or −9; origin
rank 6 stepping 9, 10 or 11) are written as one disjunction. -/
def rayWalk (from120 : ℤ) (step120 : ℤ) (frm : ℕ) (to120 : ℤ) :
    ℕ → ℕ × MoveRow → ℕ × MoveRow
  | 0, st => st
  | fuel + 1, (moveCount, row) =>
      if mailboxAt to120 = -1 then (moveCount, row)
      else
        let toSq := (mailboxAt to120).toNat
        let row := row.setCell toSq 0 moveCount
        let diff := to120 - from120
        let st :=
          if (frm >>> 3 = 1 ∧ (diff = -11 ∨ diff = -10 ∨ diff = -9)) ∨
             (frm >>> 3 = 6 ∧ (diff = 9 ∨ diff = 10 ∨ diff = 11)) then
            let row := row.setCell toSq 4 moveCount
            let row := row.setCell toSq 1 (moveCount + 1)
            let row := row.setCell toSq 2 (moveCount + 2)
            let row := row.setCell toSq 3 (moveCount + 3)
            (moveCount + 4, row)
          else (moveCount + 1, row)
        rayWalk from120 step120 frm (to120 + step120) fuel st

/-- One knight step of `IndexConverter::new`. -/
def knightStep (from120 : ℤ) (_frm : ℕ) (step120 : ℤ) (st : ℕ × MoveRow) :
    ℕ × MoveRow :=
  let to120 := from120 + step120
  if mailboxAt to120 = -1 then st
  else
    let toSq := (mailboxAt to120).toNat
    (st.1 + 1, st.2.setCell toSq 0 st.1)

/-- One iteration of the outer `for from in 0..64` loop of
`IndexConverter::new`: all queen-ray writes, then all knight writes, for
origin `frm`, starting from the given `move_count` and the all-(−1) row. -/
def buildMoveRow (frm : ℕ) (moveCount : ℕ) : ℕ × MoveRow :=
  let from120 := MAILBOX64.getD frm (-1)
  let st := QUEEN_STEPS120.foldl
    (fun st step120 => rayWalk from120 step120 frm (from120 + step120) 8 st)
    (moveCount, (List.replicate 64 (List.replicate 5 (-1 : ℤ)) : List (List ℤ)))
  KNIGHT_STEPS120.foldl (fun st step120 => knightStep from120 frm step120 st) st

/-- The whole construction loop of `IndexConverter::new`
(src/src/shared/index_converter.rs lines 53-95): starting from
`move_count = 0`, each origin appends its row with `move_count`
threaded through in source order. -/
def buildMoveTab : ℕ × MoveTab :=
  ((List.range 64).foldl
    (fun st frm =>
      let r := buildMoveRow frm st.1
      (r.1, st.2 ++ [(show List (List ℤ) from r.2)]))
    ((0, []) : ℕ × List (List (List ℤ))) : ℕ × List (List (List ℤ)))

/-- Model of the `IndexConverter` structure. -/
structure IndexConverter where
  moveCount : ℕ
  tabMoveIndices : MoveTab

/-- `IndexConverter::new`. -/
def IndexConverter.new : IndexConverter :=
  ⟨buildMoveTab.1, buildMoveTab.2⟩

/-- Modelled from the spec: `chess::moves::PromotePiece`. -/
inductive PromotePiece where
  | Knight
  | Bishop
  | Rook
  | Queen
deriving DecidableEq

/-- Modelled from the spec: the UCI form of a `chess::Move` — either the
null move or a source/destination pair with an optional promotion. -/
inductive UciMove where
  | Null
  | Move (src dst : ℕ) (promote : Option PromotePiece)
deriving DecidableEq

/-- `IndexConverter::move_to_index`
(src/src/shared/index_converter.rs lines 100-121). -/
def IndexConverter.moveToIndex (c : IndexConverter) (mv : UciMove) (color : Color) :
    Option ℕ :=
  match mv with
  | .Null => none
  | .Move src dst promote =>
      let srcIdx := coordToIndex src color
      let dstIdx := coordToIndex dst color
      let promoteIdx : ℕ :=
        match promote with
        | none => 0
        | some .Knight => 1
        | some .Bishop => 2
        | some .Rook => 3
        | some .Queen => 4
      if c.tabMoveIndices.get3 srcIdx dstIdx promoteIdx ≠ -1 then
        some (c.tabMoveIndices.get3 srcIdx dstIdx promoteIdx).toNat
      else none

/-- The `some index / none` shape `move_to_index` returns for a table
entry. -/
def optIdx (v : ℤ) : Option ℕ := if v ≠ -1 then some v.toNat else none

/-- The promotion slot of `move_to_index`. -/
def promoteIdxOf : Option PromotePiece → ℕ
  | none => 0
  | some .Knight => 1
  | some .Bishop => 2
  | some .Rook => 3
  | some .Queen => 4

/-- The C9 promotion-sharing property of one destination cell
`tab_move_indices[src][dst]` (5 promotion slots), as an executable
check: when the queen slot is filled, the queen index equals the plain
index, the plain/knight/bishop/rook indices exist, and knight, bishop,
rook and the shared plain index are pairwise distinct. -/
def cellPromoOk (cell : List ℤ) : Bool :=
  if cell.getD 4 (-1) = -1 then true
  else
    decide (optIdx (cell.getD 4 (-1)) = optIdx (cell.getD 0 (-1))) &&
    decide (optIdx (cell.getD 0 (-1)) ≠ none) &&
    decide (optIdx (cell.getD 1 (-1)) ≠ none) &&
    decide (optIdx (cell.getD 2 (-1)) ≠ none) &&
    decide (optIdx (cell.getD 3 (-1)) ≠ none) &&
    decide (optIdx (cell.getD 1 (-1)) ≠ optIdx (cell.getD 2 (-1))) &&
    decide (optIdx (cell.getD 1 (-1)) ≠ optIdx (cell.getD 3 (-1))) &&
    decide (optIdx (cell.getD 2 (-1)) ≠ optIdx (cell.getD 3 (-1))) &&
    decide (optIdx (cell.getD 1 (-1)) ≠ optIdx (cell.getD 0 (-1))) &&
    decide (optIdx (cell.getD 2 (-1)) ≠ optIdx (cell.getD 0 (-1))) &&
    decide (optIdx (cell.getD 3 (-1)) ≠ optIdx (cell.getD 0 (-1)))

/-- The cell check over the whole table, one traversal. -/
def tabPromoOk (t : List (List (List ℤ))) : Bool :=
  t.all fun row => row.all cellPromoOk

set_option maxRecDepth 100000 in
set_option maxHeartbeats 4000000 in
/-- The three facts about the constructed table that C9 needs, each a
single kernel evaluation of the construction: the final `move_count`,
the per-cell promotion check over the whole table, and the queen slot
of the square pair 8→0 being filled. -/
theorem c9_table_check :
    buildMoveTab.1 = 1924 ∧ tabPromoOk buildMoveTab.2 = true ∧
      MoveTab.get3 buildMoveTab.2 8 0 4 ≠ -1 :=
  ⟨rfl, rfl, by decide⟩

theorem cellPromoOk_getD (t : List (List (List ℤ)))
    (h : tabPromoOk t = true) (src dst : ℕ) :
    cellPromoOk ((t.getD src []).getD dst []) = true := by
  rw [tabPromoOk, List.all_eq_true] at h
  by_cases hs : src < t.length
  · have hrow := h (t.getD src []) (by
      rw [List.getD_eq_getElem t [] hs]
      exact List.getElem_mem hs)
    rw [List.all_eq_true] at hrow
    by_cases hd : dst < (t.getD src []).length
    · exact hrow ((t.getD src []).getD dst []) (by
        rw [List.getD_eq_getElem _ [] hd]
        exact List.getElem_mem hd)
    · rw [List.getD_eq_default _ [] (le_of_not_lt hd)]
      rfl
  · rw [List.getD_eq_default _ [] (le_of_not_lt hs)]
    rfl

theorem moveToIndex_white_getD (c : IndexConverter) (src dst : ℕ)
    (p : Option PromotePiece) :
    c.moveToIndex (.Move src dst p) .White =
      optIdx (((c.tabMoveIndices.getD src []).getD dst []).getD
        (promoteIdxOf p) (-1)) := by
  cases p with
  | none => rfl
  | some pp => cases pp <;> rfl

set_option maxRecDepth 8000 in
set_option maxHeartbeats 2000000 in
/-- C9: `IndexConverter::new()` builds a table with `move_count() = 1924`,
and for every source/destination pair that carries promotion variants
(the queen slot of the table is filled), `move_to_index` gives the
queen promotion the same index as the plain move with that source and
destination, while the knight, bishop and rook promotions get indices
that exist and are pairwise distinct and distinct from the shared
queen/plain index. -/
theorem indexConverter_moveCount_1924_and_promotion_sharing :
    IndexConverter.new.moveCount = 1924 ∧
    ∀ src dst : Fin 64,
      IndexConverter.new.tabMoveIndices.get3 src dst 4 ≠ -1 →
      (IndexConverter.new.moveToIndex (.Move src dst (some .Queen)) .White =
          IndexConverter.new.moveToIndex (.Move src dst none) .White ∧
        IndexConverter.new.moveToIndex (.Move src dst none) .White ≠ none ∧
        IndexConverter.new.moveToIndex (.Move src dst (some .Knight)) .White ≠ none ∧
        IndexConverter.new.moveToIndex (.Move src dst (some .Bishop)) .White ≠ none ∧
        IndexConverter.new.moveToIndex (.Move src dst (some .Rook)) .White ≠ none ∧
        IndexConverter.new.moveToIndex (.Move src dst (some .Knight)) .White ≠
          IndexConverter.new.moveToIndex (.Move src dst (some .Bishop)) .White ∧
        IndexConverter.new.moveToIndex (.Move src dst (some .Knight)) .White ≠
          IndexConverter.new.moveToIndex (.Move src dst (some .Rook)) .White ∧
        IndexConverter.new.moveToIndex (.Move src dst (some .Bishop)) .White ≠
          IndexConverter.new.moveToIndex (.Move src dst (some .Rook)) .White ∧
        IndexConverter.new.moveToIndex (.Move src dst (some .Knight)) .White ≠
          IndexConverter.new.moveToIndex (.Move src dst none) .White ∧
        IndexConverter.new.moveToIndex (.Move src dst (some .Bishop)) .White ≠
          IndexConverter.new.moveToIndex (.Move src dst none) .White ∧
        IndexConverter.new.moveToIndex (.Move src dst (some .Rook)) .White ≠
          IndexConverter.new.moveToIndex (.Move src dst none) .White) := by
  refine ⟨c9_table_check.1, ?_⟩
  intro src dst hne
  have htab : tabPromoOk IndexConverter.new.tabMoveIndices = true :=
    c9_table_check.2.1
  have hcell := cellPromoOk_getD IndexConverter.new.tabMoveIndices htab src dst
  have hne2 : ¬(((IndexConverter.new.tabMoveIndices.getD (src : ℕ) []).getD
      (dst : ℕ) []).getD 4 (-1) = -1) := hne
  rw [cellPromoOk, if_neg hne2] at hcell
  simp only [Bool.and_eq_true, decide_eq_true_eq] at hcell
  simp only [moveToIndex_white_getD, promoteIdxOf]
  tauto

/-- C9 witness: the promotion square pair a2→a1 (source index 8, rank 1;
destination index 0) has promotion variants, and the theorem applies to
it; the queen promotion shares the index of the plain move. -/
theorem indexConverter_promotion_sharing_witness :
    IndexConverter.new.tabMoveIndices.get3 8 0 4 ≠ -1 ∧
    IndexConverter.new.moveToIndex (.Move 8 0 (some .Queen)) .White =
      IndexConverter.new.moveToIndex (.Move 8 0 none) .White :=
  ⟨c9_table_check.2.2,
   (indexConverter_moveCount_1924_and_promotion_sharing.2 (8 : Fin 64) (0 : Fin 64)
     c9_table_check.2.2).1⟩


/-! ## Board encoding (src/src/shared/converter.rs, src/src/shared/utils.rs)

The board itself comes from the external `chess` crate; the attributes
the encoder reads are modelled from the spec.  The `f32` buffer the
encoder writes (`elems: &mut [f32]`) is modelled as a total function
`ℕ → ℚ` updated at the written offsets, in source order. -/

/-- Modelled from the spec: the six chess piece kinds. -/
inductive Piece where
  | Pawn
  | King
  | Knight
  | Bishop
  | Rook
  | Queen
deriving DecidableEq

/-- Modelled from the spec: a 13-way index for a piece kind, used to
build `Cell::index`. -/
def Piece.index : Piece → ℕ
  | .Pawn => 0
  | .King => 1
  | .Knight => 2
  | .Bishop => 3
  | .Rook => 4
  | .Queen => 5

/-- Modelled from the spec: a board cell — empty or a colored piece
(`chess::Cell`). -/
def Cell := Option (Color × Piece)

instance : DecidableEq Cell := by
  unfold Cell
  infer_instance

/-- Modelled from the spec: `Cell::index`, the 13-way one-hot position
over {empty, 6 first-color piece kinds, 6 second-color piece kinds}. -/
def Cell.index : Cell → ℕ
  | none => 0
  | some (.White, p) => 1 + p.index
  | some (.Black, p) => 7 + p.index

/-- `cell_to_index` (src/src/shared/utils.rs lines 27-39): for the
second color the piece color is swapped before taking `Cell::index`. -/
def cellToIndex (cell : Cell) (color : Color) : ℕ :=
  let tmpCell : Cell :=
    match color with
    | .White => cell
    | .Black =>
        match cell with
        | some (pieceColor, piece) => some (pieceColor.inv, piece)
        | none => cell
  tmpCell.index

/-- Modelled from the spec: the castling sides (`chess::CastlingSide`). -/
inductive CastlingSide where
  | Queen
  | King
deriving DecidableEq

/-- Modelled from the spec: the board attributes that
`Converter::board_to_matrix_col` reads — side to move, piece on each
square (squares indexed 0..63), castling rights per color and side, and
the en-passant destination file. -/
structure Board where
  side : Color
  cells : ℕ → Cell
  castling : Color → CastlingSide → Bool
  epDest : Option (Fin 8)

/-- `Converter::BOARD_ROW_COUNT = 64 * 13 + 6 + 9` (which is 847). -/
def BOARD_ROW_COUNT : ℕ := 64 * 13 + 6 + 9

/-- `Converter::board_to_matrix_col`
(src/src/shared/converter.rs lines 44-87): fill the column with `-1.0`,
then write `1.0` at one slot per square, at the triggered castling
slots, and at the en-passant slot. -/
def boardToMatrixCol (board : Board) (elems : ℕ → ℚ) (col colCount : ℕ) :
    ℕ → ℚ :=
  let elems := (List.range BOARD_ROW_COUNT).foldl
    (fun e i => Function.update e (colCount * i + col) (-1)) elems
  let side := board.side
  let elems := (List.range 64).foldl
    (fun e squ =>
      let coordIdx := coordToIndex squ side
      let cellIdx := cellToIndex (board.cells coordIdx) side
      Function.update e (colCount * (0 + coordIdx * 13 + cellIdx) + col) 1)
    elems
  let offset := 0 + 64 * 13
  let wqCastling := board.castling side .Queen
  let wkCastling := board.castling side .King
  let weCastling := !(wqCastling || wkCastling)
  let bqCastling := board.castling side.inv .Queen
  let bkCastling := board.castling side.inv .King
  let beCastling := !(bqCastling || bkCastling)
  let elems := if wqCastling then Function.update elems (colCount * (offset + 0) + col) 1 else elems
  let elems := if wkCastling then Function.update elems (colCount * (offset + 1) + col) 1 else elems
  let elems := if weCastling then Function.update elems (colCount * (offset + 2) + col) 1 else elems
  let elems := if bqCastling then Function.update elems (colCount * (offset + 3) + col) 1 else elems
  let elems := if bkCastling then Function.update elems (colCount * (offset + 4) + col) 1 else elems
  let elems := if beCastling then Function.update elems (colCount * (offset + 5) + col) 1 else elems
  let offset := offset + 6
  match board.epDest with
  | some epDest => Function.update elems (colCount * (offset + (epDest : ℕ) + 1) + col) 1
  | none => Function.update elems (colCount * (offset + 0) + col) 1

/-- `coord_to_index` stays below 64 on square indices. -/
theorem coordToIndex_lt (idx : ℕ) (h : idx < 64) (c : Color) :
    coordToIndex idx c < 64 := by
  cases c
  · simpa [coordToIndex] using h
  · revert h
    revert idx
    decide

/-- `coord_to_index` is an involution on square indices. -/
theorem coordToIndex_invol (idx : ℕ) (h : idx < 64) (c : Color) :
    coordToIndex (coordToIndex idx c) c = idx := by
  cases c
  · simp [coordToIndex]
  · revert h
    revert idx
    decide

/-- `cell_to_index` stays below 13. -/
theorem cellToIndex_lt (cell : Cell) (c : Color) : cellToIndex cell c < 13 := by
  rcases cell with _ | ⟨pc, p⟩
  · cases c <;> simp [cellToIndex, Cell.index]
  · cases c <;> cases pc <;> cases p <;>
      simp [cellToIndex, Cell.index, Color.inv, Piece.index]


/-! ### Closed form of the encoded column -/

/-- Writing the same value through a list of positions, evaluated at a
point: the value if some position hits it, the base otherwise. -/
theorem foldl_update_const {α : Type} [DecidableEq α] (l : List α) (e : α → ℚ)
    (v : ℚ) (pos : α → α) (x : α) :
    (l.foldl (fun e i => Function.update e (pos i) v) e) x =
      if ∃ i ∈ l, pos i = x then v else e x := by
  induction l generalizing e with
  | nil => simp
  | cons a l ih =>
      simp only [List.foldl_cons, ih]
      by_cases h1 : ∃ i ∈ l, pos i = x
      · simp [h1]
      · by_cases h2 : pos a = x
        · simp [h1, h2, Function.update]
        · have h3 : ¬∃ i ∈ a :: l, pos i = x := by
            rintro ⟨i, hi, hp⟩
            rcases List.mem_cons.mp hi with rfl | hi
            · exact h2 hp
            · exact h1 ⟨i, hi, hp⟩
          have h4 : ¬x = pos a := fun hx => h2 hx.symm
          simp [h1, h2, h3, Function.update, h4]

/-- A guarded single write, evaluated at a point. -/
theorem condUpdate_apply (c : Bool) (e : ℕ → ℚ) (p : ℕ) (v : ℚ) (x : ℕ) :
    (if c then Function.update e p v else e) x =
      if c ∧ x = p then v else e x := by
  cases c
  · by_cases h : x = p <;> simp [Function.update, h]
  · by_cases h : x = p <;> simp [Function.update, h]

/-- Distinct rows occupy distinct buffer offsets of one column. -/
theorem colPos_inj (col cc a b : ℕ) (h : col < cc) :
    cc * a + col = cc * b + col ↔ a = b := by
  constructor
  · intro hab
    have hcc : 0 < cc := lt_of_le_of_lt (Nat.zero_le _) h
    have := Nat.add_right_cancel hab
    exact Nat.eq_of_mul_eq_mul_left hcc this
  · rintro rfl; rfl

/-- The slot, among the nine en-passant rows, that the encoder sets. -/
def epSlot (b : Board) : ℕ :=
  match b.epDest with
  | some epDest => (epDest : ℕ) + 1
  | none => 0

theorem BOARD_ROW_COUNT_eq : BOARD_ROW_COUNT = 847 := rfl

theorem epSlot_le (b : Board) : epSlot b ≤ 8 := by
  rcases hepd : b.epDest with _ | f
  · simp [epSlot, hepd]
  · have := f.isLt
    simp only [epSlot, hepd]
    omega

/-- The closed form of the column that `board_to_matrix_col` writes:
row `i` of the column as a function of the board.  (Definition used only
to state theorems; the encoder itself is `boardToMatrixCol`.) -/
def rowValue (b : Board) (i : ℕ) : ℚ :=
  if i < 832 then
    (if i % 13 = cellToIndex (b.cells (i / 13)) b.side then 1 else -1)
  else if i = 832 then (if b.castling b.side .Queen then 1 else -1)
  else if i = 833 then (if b.castling b.side .King then 1 else -1)
  else if i = 834 then
    (if b.castling b.side .Queen || b.castling b.side .King then -1 else 1)
  else if i = 835 then (if b.castling b.side.inv .Queen then 1 else -1)
  else if i = 836 then (if b.castling b.side.inv .King then 1 else -1)
  else if i = 837 then
    (if b.castling b.side.inv .Queen || b.castling b.side.inv .King then -1 else 1)
  else if i = 838 + epSlot b then 1
  else -1

/-- The rows hit by the per-square one-hot writes are exactly the rows
below 832 whose offset inside their 13-block is the block square's
encoded cell index (the reflected loop index cancels against the
reflected fetch index). -/
theorem square_exists_iff (b : Board) (i : ℕ) :
    (∃ squ, squ < 64 ∧
        coordToIndex squ b.side * 13 +
            cellToIndex (b.cells (coordToIndex squ b.side)) b.side = i) ↔
      (i < 832 ∧ i % 13 = cellToIndex (b.cells (i / 13)) b.side) := by
  constructor
  · rintro ⟨squ, hs64, rfl⟩
    have hlt : coordToIndex squ b.side < 64 := coordToIndex_lt squ hs64 b.side
    have hc : cellToIndex (b.cells (coordToIndex squ b.side)) b.side < 13 :=
      cellToIndex_lt _ _
    refine ⟨by omega, ?_⟩
    have hmod : (coordToIndex squ b.side * 13 +
        cellToIndex (b.cells (coordToIndex squ b.side)) b.side) % 13 =
        cellToIndex (b.cells (coordToIndex squ b.side)) b.side := by omega
    have hdiv2 : (coordToIndex squ b.side * 13 +
        cellToIndex (b.cells (coordToIndex squ b.side)) b.side) / 13 =
        coordToIndex squ b.side := by omega
    rw [hmod, hdiv2]
  · rintro ⟨hi, hmod⟩
    have hdiv : i / 13 < 64 := by omega
    refine ⟨coordToIndex (i / 13) b.side, coordToIndex_lt _ hdiv b.side, ?_⟩
    rw [coordToIndex_invol _ hdiv b.side, ← hmod]
    omega

/-- Closed form of `board_to_matrix_col`: the value of every row of the
written column.  (All rows below `BOARD_ROW_COUNT = 847` are covered;
the initial buffer contents never show through.) -/
theorem boardToMatrixCol_char (b : Board) (e : ℕ → ℚ) (col cc : ℕ)
    (hcol : col < cc) (i : ℕ) (hi : i < 847) :
    boardToMatrixCol b e col cc (cc * i + col) = rowValue b i := by
  have hinj : ∀ a c : ℕ, (cc * a + col = cc * c + col) ↔ a = c :=
    fun a c => colPos_inj col cc a c hcol
  rcases hepd : b.epDest with _ | f
  all_goals
    unfold boardToMatrixCol
  all_goals
    simp only [hepd, Function.update_apply, condUpdate_apply,
      foldl_update_const, hinj, Nat.zero_add, Nat.add_zero, List.mem_range,
      BOARD_ROW_COUNT_eq, Nat.reduceMul, Nat.reduceAdd, exists_eq_right,
      square_exists_iff, hi, if_true]
  · -- no en-passant square: the slot is row 838
    by_cases h1 : i < 832
    · have n832 : ¬ i = 832 := by omega
      have n833 : ¬ i = 833 := by omega
      have n834 : ¬ i = 834 := by omega
      have n835 : ¬ i = 835 := by omega
      have n836 : ¬ i = 836 := by omega
      have n837 : ¬ i = 837 := by omega
      have n838 : ¬ i = 838 := by omega
      by_cases hm : i % 13 = cellToIndex (b.cells (i / 13)) b.side <;>
        simp [rowValue, h1, hm, n832, n833, n834, n835, n836, n837, n838]
    · by_cases h2 : i ≤ 837
      · have n838 : ¬ i = 838 := by omega
        interval_cases i <;>
          rcases hwq : b.castling b.side CastlingSide.Queen <;>
          rcases hwk : b.castling b.side CastlingSide.King <;>
          rcases hbq : b.castling b.side.inv CastlingSide.Queen <;>
          rcases hbk : b.castling b.side.inv CastlingSide.King <;>
            simp [rowValue, epSlot, hepd, hwq, hwk, hbq, hbk]
      · have n832 : ¬ i = 832 := by omega
        have n833 : ¬ i = 833 := by omega
        have n834 : ¬ i = 834 := by omega
        have n835 : ¬ i = 835 := by omega
        have n836 : ¬ i = 836 := by omega
        have n837 : ¬ i = 837 := by omega
        simp [rowValue, epSlot, hepd, h1, n832, n833, n834, n835, n836, n837]
  · -- en-passant square with file f: the slot is row 838 + f + 1
    by_cases h1 : i < 832
    · have n832 : ¬ i = 832 := by omega
      have n833 : ¬ i = 833 := by omega
      have n834 : ¬ i = 834 := by omega
      have n835 : ¬ i = 835 := by omega
      have n836 : ¬ i = 836 := by omega
      have n837 : ¬ i = 837 := by omega
      have nep : ¬ i = 838 + ((f : ℕ) + 1) := by omega
      by_cases hm : i % 13 = cellToIndex (b.cells (i / 13)) b.side <;>
        simp [rowValue, epSlot, hepd, h1, hm, n832, n833, n834, n835, n836,
          n837, nep, Nat.add_assoc]
    · by_cases h2 : i ≤ 837
      · have nep : ¬ i = 838 + ((f : ℕ) + 1) := by omega
        interval_cases i <;>
          rcases hwq : b.castling b.side CastlingSide.Queen <;>
          rcases hwk : b.castling b.side CastlingSide.King <;>
          rcases hbq : b.castling b.side.inv CastlingSide.Queen <;>
          rcases hbk : b.castling b.side.inv CastlingSide.King <;>
            simp [rowValue, epSlot, hepd, hwq, hwk, hbq, hbk, nep,
              Nat.add_assoc]
      · have n832 : ¬ i = 832 := by omega
        have n833 : ¬ i = 833 := by omega
        have n834 : ¬ i = 834 := by omega
        have n835 : ¬ i = 835 := by omega
        have n836 : ¬ i = 836 := by omega
        have n837 : ¬ i = 837 := by omega
        simp [rowValue, epSlot, hepd, h1, n832, n833, n834, n835, n836, n837,
          Nat.add_assoc]

/-! ### C4 / C3: properties of the encoded column -/

/-- Value of a piece row: inside square `s`'s 13-block, offset `j` holds
`1` exactly when `j` is the encoded cell index of the piece standing on
square `s` itself. -/
theorem boardToMatrixCol_piece_row (b : Board) (e : ℕ → ℚ) (col cc : ℕ)
    (hcol : col < cc) (s j : ℕ) (hs : s < 64) (hj : j < 13) :
    boardToMatrixCol b e col cc (cc * (s * 13 + j) + col) =
      (if j = cellToIndex (b.cells s) b.side then 1 else -1) := by
  have h := boardToMatrixCol_char b e col cc hcol (s * 13 + j) (by omega)
  have hmod : (s * 13 + j) % 13 = j := by omega
  have hdiv : (s * 13 + j) / 13 = s := by omega
  rw [h, rowValue, if_pos (by omega : s * 13 + j < 832), hmod, hdiv]

/-- Value of an en-passant row: among the nine rows `838..846`, offset
`k` holds `1` exactly when it is the slot of the board's en-passant
state (file + 1, or 0 for none). -/
theorem boardToMatrixCol_ep_row (b : Board) (e : ℕ → ℚ) (col cc : ℕ)
    (hcol : col < cc) (k : ℕ) (hk : k < 9) :
    boardToMatrixCol b e col cc (cc * (838 + k) + col) =
      (if k = epSlot b then 1 else -1) := by
  have h := boardToMatrixCol_char b e col cc hcol (838 + k) (by omega)
  rw [h, rowValue, if_neg (by omega : ¬ 838 + k < 832),
    if_neg (by omega : ¬ 838 + k = 832), if_neg (by omega : ¬ 838 + k = 833),
    if_neg (by omega : ¬ 838 + k = 834), if_neg (by omega : ¬ 838 + k = 835),
    if_neg (by omega : ¬ 838 + k = 836), if_neg (by omega : ¬ 838 + k = 837)]
  by_cases hc : k = epSlot b
  · rw [if_pos (by omega : 838 + k = 838 + epSlot b), if_pos hc]
  · rw [if_neg (by omega : ¬ 838 + k = 838 + epSlot b), if_neg hc]

/-- Value of a castling row, rows 832..837. -/
theorem boardToMatrixCol_castling_rows (b : Board) (e : ℕ → ℚ) (col cc : ℕ)
    (hcol : col < cc) :
    boardToMatrixCol b e col cc (cc * 832 + col) =
        (if b.castling b.side .Queen then 1 else -1) ∧
      boardToMatrixCol b e col cc (cc * 833 + col) =
        (if b.castling b.side .King then 1 else -1) ∧
      boardToMatrixCol b e col cc (cc * 834 + col) =
        (if b.castling b.side .Queen || b.castling b.side .King then -1 else 1) ∧
      boardToMatrixCol b e col cc (cc * 835 + col) =
        (if b.castling b.side.inv .Queen then 1 else -1) ∧
      boardToMatrixCol b e col cc (cc * 836 + col) =
        (if b.castling b.side.inv .King then 1 else -1) ∧
      boardToMatrixCol b e col cc (cc * 837 + col) =
        (if b.castling b.side.inv .Queen || b.castling b.side.inv .King then -1 else 1) := by
  refine ⟨?_, ?_, ?_, ?_, ?_, ?_⟩ <;>
    · rw [boardToMatrixCol_char b e col cc hcol _ (by omega), rowValue]
      norm_num

/-- The invariants that actually hold of every encoded column (the
amended form of the claim): each of the 64 square blocks holds exactly
one `+1`; the castling rows are the queen-right, king-right and
no-right flags, so each castling block sums to `1` when both rights are
present and to `-1` otherwise; exactly one of the nine en-passant rows
is `1`; and every row of the column is `1` or `-1` (all 847 rows are
written, the initial buffer never shows through). -/
def columnInvariants (b : Board) (e : ℕ → ℚ) (col cc : ℕ) : Prop :=
  (∀ s, s < 64 →
    ((Finset.range 13).filter
      (fun j => boardToMatrixCol b e col cc (cc * (s * 13 + j) + col) = 1)).card = 1) ∧
  (boardToMatrixCol b e col cc (cc * 832 + col) +
      boardToMatrixCol b e col cc (cc * 833 + col) +
      boardToMatrixCol b e col cc (cc * 834 + col) =
    if b.castling b.side .Queen && b.castling b.side .King then 1 else -1) ∧
  (boardToMatrixCol b e col cc (cc * 835 + col) +
      boardToMatrixCol b e col cc (cc * 836 + col) +
      boardToMatrixCol b e col cc (cc * 837 + col) =
    if b.castling b.side.inv .Queen && b.castling b.side.inv .King then 1 else -1) ∧
  ((Finset.range 9).filter
    (fun k => boardToMatrixCol b e col cc (cc * (838 + k) + col) = 1)).card = 1 ∧
  (∀ i, i < 847 →
    boardToMatrixCol b e col cc (cc * i + col) = 1 ∨
      boardToMatrixCol b e col cc (cc * i + col) = -1)

/-- C4 amended theorem: the invariants above hold of every board and
every column slot of the buffer. -/
theorem boardToMatrixCol_invariants (b : Board) (e : ℕ → ℚ) (col cc : ℕ)
    (hcol : col < cc) : columnInvariants b e col cc := by
  obtain ⟨h832, h833, h834, h835, h836, h837⟩ :=
    boardToMatrixCol_castling_rows b e col cc hcol
  refine ⟨?_, ?_, ?_, ?_, ?_⟩
  · intro s hs
    have hone : (Finset.range 13).filter
        (fun j => boardToMatrixCol b e col cc (cc * (s * 13 + j) + col) = 1) =
        {cellToIndex (b.cells s) b.side} := by
      ext j
      simp only [Finset.mem_filter, Finset.mem_range, Finset.mem_singleton]
      constructor
      · rintro ⟨hj, hv⟩
        rw [boardToMatrixCol_piece_row b e col cc hcol s j hs hj] at hv
        by_contra hne
        rw [if_neg hne] at hv
        norm_num at hv
      · rintro rfl
        refine ⟨cellToIndex_lt _ _, ?_⟩
        rw [boardToMatrixCol_piece_row b e col cc hcol s _ hs (cellToIndex_lt _ _),
          if_pos rfl]
    rw [hone, Finset.card_singleton]
  · rw [h832, h833, h834]
    rcases hq : b.castling b.side .Queen <;> rcases hk : b.castling b.side .King <;>
      norm_num
  · rw [h835, h836, h837]
    rcases hq : b.castling b.side.inv .Queen <;>
      rcases hk : b.castling b.side.inv .King <;> norm_num
  · have hone : (Finset.range 9).filter
        (fun k => boardToMatrixCol b e col cc (cc * (838 + k) + col) = 1) =
        {epSlot b} := by
      ext k
      simp only [Finset.mem_filter, Finset.mem_range, Finset.mem_singleton]
      constructor
      · rintro ⟨hk, hv⟩
        rw [boardToMatrixCol_ep_row b e col cc hcol k hk] at hv
        by_contra hne
        rw [if_neg hne] at hv
        norm_num at hv
      · rintro rfl
        have := epSlot_le b
        refine ⟨by omega, ?_⟩
        rw [boardToMatrixCol_ep_row b e col cc hcol _ (by omega), if_pos rfl]
    rw [hone, Finset.card_singleton]
  · intro i hi
    rw [boardToMatrixCol_char b e col cc hcol i hi, rowValue]
    split_ifs <;> simp

/-- A board with no castling rights, used to refute the claimed
castling-block sums: its own-castling rows are `(-1, -1, 1)`. -/
def noRightsBoard : Board :=
  { side := Color.White
    cells := fun _ => none
    castling := fun _ _ => false
    epDest := none }

/-- C4 counterexample: for a board with no castling rights the three
own-castling rows sum to `-1`, not `1` as claimed; and the column has
847 rows, not 845: rows 845 and 846 are also written (here to `-1`,
overwriting the junk value `5` the buffer started with). -/
theorem boardToMatrixCol_claim_counterexample :
    boardToMatrixCol noRightsBoard (fun _ => 5) 0 1 (1 * 832 + 0) +
        boardToMatrixCol noRightsBoard (fun _ => 5) 0 1 (1 * 833 + 0) +
        boardToMatrixCol noRightsBoard (fun _ => 5) 0 1 (1 * 834 + 0) = -1 ∧
      boardToMatrixCol noRightsBoard (fun _ => 5) 0 1 (1 * 845 + 0) = -1 ∧
      boardToMatrixCol noRightsBoard (fun _ => 5) 0 1 (1 * 846 + 0) = -1 := by
  obtain ⟨h832, h833, h834, _, _, _⟩ :=
    boardToMatrixCol_castling_rows noRightsBoard (fun _ => 5) 0 1 (by norm_num)
  refine ⟨?_, ?_, ?_⟩
  · rw [h832, h833, h834]
    norm_num [noRightsBoard]
  · rw [boardToMatrixCol_ep_row noRightsBoard (fun _ => 5) 0 1 (by norm_num) 7
      (by norm_num)]
    norm_num [noRightsBoard, epSlot]
  · rw [boardToMatrixCol_ep_row noRightsBoard (fun _ => 5) 0 1 (by norm_num) 8
      (by norm_num)]
    norm_num [noRightsBoard, epSlot]

/-- C4 witness: the invariants instantiated at a concrete board and the
first column of a one-column buffer. -/
theorem boardToMatrixCol_invariants_witness :
    0 < 1 ∧ columnInvariants noRightsBoard (fun _ => 5) 0 1 :=
  ⟨by norm_num, boardToMatrixCol_invariants noRightsBoard (fun _ => 5) 0 1 (by norm_num)⟩

/-- A black-to-move board with a single white pawn on square 8 (a2),
used to refute the claimed vertical reflection. -/
def blackPawnBoard : Board :=
  { side := Color.Black
    cells := fun i => if i = 8 then some (Color.White, Piece.Pawn) else none
    castling := fun _ _ => false
    epDest := none }

/-- C3 counterexample: with black to move and a single white pawn on
square 8, the claim says square 8's block should be the one-hot of the
piece standing on the vertical reflection of 8 (square 48, empty, cell
index 0), i.e. row `8*13 + 0` should be `1`.  It is `-1`: the block at
square 8 holds the piece standing on square 8 itself (color-swapped, a
second-color pawn, cell index 7), because the reflected index is used
both to fetch the piece and to address the block, cancelling out. -/
theorem boardToMatrixCol_reflection_counterexample :
    blackPawnBoard.side = Color.Black ∧
      coordToIndex 8 Color.Black = 48 ∧
      blackPawnBoard.cells 48 = none ∧
      cellToIndex (blackPawnBoard.cells 48) Color.Black = 0 ∧
      boardToMatrixCol blackPawnBoard (fun _ => 0) 0 1 (1 * (8 * 13 + 0) + 0) = -1 ∧
      boardToMatrixCol blackPawnBoard (fun _ => 0) 0 1 (1 * (8 * 13 + 7) + 0) = 1 := by
  refine ⟨rfl, by decide, ?_, ?_, ?_, ?_⟩
  · simp [blackPawnBoard]
  · simp [blackPawnBoard, cellToIndex, Cell.index]
  · rw [boardToMatrixCol_piece_row blackPawnBoard (fun _ => 0) 0 1 (by norm_num)
      8 0 (by norm_num) (by norm_num)]
    norm_num [blackPawnBoard, cellToIndex, Cell.index, Color.inv, Piece.index]
  · rw [boardToMatrixCol_piece_row blackPawnBoard (fun _ => 0) 0 1 (by norm_num)
      8 7 (by norm_num) (by norm_num)]
    norm_num [blackPawnBoard, cellToIndex, Cell.index, Color.inv, Piece.index]

/-- C3 amended theorem: when the side to move is the second color, the
column encodes the board with piece colors swapped in place: for every
square `s` and offset `j < 13`, the block at square index `s` is `1`
exactly at the color-swapped cell index of the piece occupying `s`
itself (no vertical reflection survives: the reflected index is used
both to fetch the piece and to address the block). -/
theorem boardToMatrixCol_black_swaps_colors_in_place (b : Board)
    (hside : b.side = Color.Black) (e : ℕ → ℚ) (col cc : ℕ) (hcol : col < cc)
    (s j : ℕ) (hs : s < 64) (hj : j < 13) :
    boardToMatrixCol b e col cc (cc * (s * 13 + j) + col) = 1 ↔
      j = cellToIndex (b.cells s) Color.Black := by
  rw [boardToMatrixCol_piece_row b e col cc hcol s j hs hj, hside]
  by_cases hc : j = cellToIndex (b.cells s) Color.Black
  · simp [hc]
  · simp only [if_neg hc]
    norm_num
    exact hc

/-- C3 witness: the amended theorem applied at the concrete black-to-move
board above, square 8, offset 7 (the color-swapped pawn). -/
theorem boardToMatrixCol_black_swaps_witness :
    blackPawnBoard.side = Color.Black ∧ 0 < 1 ∧ (8 : ℕ) < 64 ∧ (7 : ℕ) < 13 ∧
      (boardToMatrixCol blackPawnBoard (fun _ => 0) 0 1 (1 * (8 * 13 + 7) + 0) = 1 ↔
        7 = cellToIndex (blackPawnBoard.cells 8) Color.Black) :=
  ⟨rfl, by norm_num, by norm_num, by norm_num,
   boardToMatrixCol_black_swaps_colors_in_place blackPawnBoard rfl (fun _ => 0)
     0 1 (by norm_num) 8 7 (by norm_num) (by norm_num)⟩


/-! ## Recurrent network (src/src/shared/network.rs)

The matrix backend is an external collaborator of the repository (the
spec's non-goals: "No matrix kernels; assume a backend offering matrix
multiply, elementwise ops, `tanh`, `softmax`, transpose, …").  The
scalar type and the two transcendental kernels are therefore parameters
of the embedding: a field `K` together with the elementwise activation
`tanh : K → K` and the exponential `exp : K → K` used by columnwise
softmax.  Every identity proved below holds for all such `K`, in
particular for `ℝ` with the real `tanh` and `exp` (`f32` arithmetic is
modelled as exact field arithmetic, which is the meaning the spec
assigns to it). -/

section NetworkModel

variable {K : Type} [Field K]

/-- Elementwise activation (the backend's `Matrix::tanh`). -/
def mtanh (tanh : K → K) {m n : ℕ} (M : Matrix (Fin m) (Fin n) K) :
    Matrix (Fin m) (Fin n) K :=
  Matrix.of fun i j => tanh (M i j)

/-- Columnwise softmax (the backend's `Matrix::softmax`):
`exp(M i j) / Σ_k exp(M k j)`. -/
def msoftmax (exp : K → K) {m n : ℕ} (M : Matrix (Fin m) (Fin n) K) :
    Matrix (Fin m) (Fin n) K :=
  Matrix.of fun i j => exp (M i j) / ∑ k, exp (M k j)

/-- Elementwise product (the backend's `Matrix::mul_elems`). -/
def mulElems {m n : ℕ} (A B : Matrix (Fin m) (Fin n) K) : Matrix (Fin m) (Fin n) K :=
  Matrix.of fun i j => A i j * B i j

/-- `Matrix::rsub`: subtract every entry from a scalar. -/
def rsub {m n : ℕ} (M : Matrix (Fin m) (Fin n) K) (c : K) : Matrix (Fin m) (Fin n) K :=
  Matrix.of fun i j => c - M i j

/-- `Matrix::repeat`: broadcast a single-column bias over `n` columns.
(The source clones instead of repeating when the batch has one column;
for one column the two coincide entrywise.) -/
def repeatCols {m : ℕ} (b : Matrix (Fin m) (Fin 1) K) (n : ℕ) :
    Matrix (Fin m) (Fin n) K :=
  Matrix.of fun i _ => b i 0

/-- `φ'` as the backward pass computes it from an emitted hidden state:
`hs[j].mul_elems(&hs[j]).rsub(1.0)`, i.e. `1 - h ⊙ h`. -/
def tanhDerivFromH {m n : ℕ} (h : Matrix (Fin m) (Fin n) K) :
    Matrix (Fin m) (Fin n) K :=
  rsub (mulElems h h) 1

/-- Model of the `Network` structure: the eight parameter matrices, with
hidden width `nh`, input rows `nin`, output rows `nout`. -/
structure Network (K : Type) (nin nh nout : ℕ) where
  iw : Matrix (Fin nh) (Fin nin) K
  ib : Matrix (Fin nh) (Fin 1) K
  sw : Matrix (Fin nh) (Fin nh) K
  sb : Matrix (Fin nh) (Fin 1) K
  pw : Matrix (Fin nh) (Fin nh) K
  pb : Matrix (Fin nh) (Fin 1) K
  ow : Matrix (Fin nout) (Fin nh) K
  ob : Matrix (Fin nout) (Fin 1) K

variable (tanh : K → K)

/-- The `for _ in 0..depth` search loop of `Network::compute`: applies
`h ← tanh(sw·h + sb)` and emits each new `h` through the callback; a
callback error (interruption) aborts, as the `?` operator does. -/
def computeSearchLoop {nh B : ℕ} {σ ε : Type}
    (sw : Matrix (Fin nh) (Fin nh) K) (sb : Matrix (Fin nh) (Fin B) K)
    (hf : Matrix (Fin nh) (Fin B) K → σ → Except ε σ) :
    ℕ → Matrix (Fin nh) (Fin B) K → σ → Except ε (Matrix (Fin nh) (Fin B) K × σ)
  | 0, h, s => .ok (h, s)
  | d + 1, h, s =>
      match hf (mtanh tanh (sw * h + sb)) s with
      | .error e => .error e
      | .ok s2 => computeSearchLoop sw sb hf d (mtanh tanh (sw * h + sb)) s2

/-- The `for _ in 0..pv_count` PV loop of `Network::compute`: applies
`h ← tanh(pw·h + pb)`, emits it, then emits `o = ow·h + ob`. -/
def computePvLoop {nh nout B : ℕ} {σ ε : Type}
    (pw : Matrix (Fin nh) (Fin nh) K) (pb : Matrix (Fin nh) (Fin B) K)
    (ow : Matrix (Fin nout) (Fin nh) K) (ob : Matrix (Fin nout) (Fin B) K)
    (hf : Matrix (Fin nh) (Fin B) K → σ → Except ε σ)
    (of : Matrix (Fin nout) (Fin B) K → σ → Except ε σ) :
    ℕ → Matrix (Fin nh) (Fin B) K → σ → Except ε σ
  | 0, _, s => .ok s
  | p + 1, h, s =>
      match hf (mtanh tanh (pw * h + pb)) s with
      | .error e => .error e
      | .ok s2 =>
          match of (ow * mtanh tanh (pw * h + pb) + ob) s2 with
          | .error e => .error e
          | .ok s3 => computePvLoop pw pb ow ob hf of p (mtanh tanh (pw * h + pb)) s3

/-- `Network::compute` (src/src/shared/network.rs lines 104-128): the
biases are broadcast over the batch once, `h[0] = tanh(iw·X + ib)` is
computed and emitted, then the search loop runs `depth` times and the
PV loop `pv_count` times.  The callbacks thread a state `σ` and may
abort with `ε` (the interruption). -/
def Network.compute {nin nh nout B : ℕ} {σ ε : Type} (net : Network K nin nh nout)
    (i : Matrix (Fin nin) (Fin B) K) (depth pvCount : ℕ)
    (hf : Matrix (Fin nh) (Fin B) K → σ → Except ε σ)
    (of : Matrix (Fin nout) (Fin B) K → σ → Except ε σ) (s : σ) : Except ε σ :=
  match hf (mtanh tanh (net.iw * i + repeatCols net.ib B)) s with
  | .error e => .error e
  | .ok s1 =>
      match computeSearchLoop tanh net.sw (repeatCols net.sb B) hf depth
          (mtanh tanh (net.iw * i + repeatCols net.ib B)) s1 with
      | .error e => .error e
      | .ok (h2, s2) =>
          computePvLoop tanh net.pw (repeatCols net.pb B) net.ow
            (repeatCols net.ob B) hf of pvCount h2 s2

/-- `k` applications of `h ← tanh(W·h + b)`. -/
def layerIter {nh B : ℕ} (W : Matrix (Fin nh) (Fin nh) K)
    (b : Matrix (Fin nh) (Fin B) K) : ℕ → Matrix (Fin nh) (Fin B) K →
    Matrix (Fin nh) (Fin B) K
  | 0, h => h
  | k + 1, h => mtanh tanh (W * layerIter W b k h + b)

@[simp]
theorem layerIter_zero {nh B : ℕ} (W : Matrix (Fin nh) (Fin nh) K)
    (b h : Matrix (Fin nh) (Fin B) K) : layerIter tanh W b 0 h = h := rfl

theorem layerIter_succ {nh B : ℕ} (W : Matrix (Fin nh) (Fin nh) K)
    (b h : Matrix (Fin nh) (Fin B) K) (k : ℕ) :
    layerIter tanh W b (k + 1) h = mtanh tanh (W * layerIter tanh W b k h + b) := rfl

theorem layerIter_shift {nh B : ℕ} (W : Matrix (Fin nh) (Fin nh) K)
    (b : Matrix (Fin nh) (Fin B) K) (k : ℕ) (h : Matrix (Fin nh) (Fin B) K) :
    layerIter tanh W b k (mtanh tanh (W * h + b)) = layerIter tanh W b (k + 1) h := by
  induction k with
  | zero => rfl
  | succ k ih =>
      rw [layerIter_succ, ih]
      rfl

end NetworkModel

/-! ### C8: the forward contract -/

section ForwardContract

variable {K : Type} [Field K] (tanh : K → K)

/-- The hidden sequence of the forward pass as the spec states it:
`h[0] = tanh(I_W·X + broadcast(I_B, B))`, `h[d] = tanh(S_W·h[d−1] + …)`
for `d ≤ depth`, and `h[depth+p] = tanh(P_W·h[depth+p−1] + …)` beyond. -/
def hseq {nin nh nout B : ℕ} (net : Network K nin nh nout)
    (i : Matrix (Fin nin) (Fin B) K) (depth : ℕ) (k : ℕ) :
    Matrix (Fin nh) (Fin B) K :=
  if k ≤ depth then
    layerIter tanh net.sw (repeatCols net.sb B) k
      (mtanh tanh (net.iw * i + repeatCols net.ib B))
  else
    layerIter tanh net.pw (repeatCols net.pb B) (k - depth)
      (layerIter tanh net.sw (repeatCols net.sb B) depth
        (mtanh tanh (net.iw * i + repeatCols net.ib B)))

/-- The output sequence of the forward pass:
`o[p] = O_W·h[depth+p] + broadcast(O_B, B)` for `p = 1..pv_count`. -/
def oseq {nin nh nout B : ℕ} (net : Network K nin nh nout)
    (i : Matrix (Fin nin) (Fin B) K) (depth : ℕ) (p : ℕ) :
    Matrix (Fin nout) (Fin B) K :=
  net.ow * hseq tanh net i depth (depth + p) + repeatCols net.ob B

variable {nh nout B : ℕ}

/-- The accumulating hidden callback: never interrupts, appends. -/
def accHf (h : Matrix (Fin nh) (Fin B) K)
    (s : List (Matrix (Fin nh) (Fin B) K) × List (Matrix (Fin nout) (Fin B) K)) :
    Except Unit (List (Matrix (Fin nh) (Fin B) K) × List (Matrix (Fin nout) (Fin B) K)) :=
  .ok (s.1 ++ [h], s.2)

/-- The accumulating output callback: never interrupts, appends. -/
def accOf (o : Matrix (Fin nout) (Fin B) K)
    (s : List (Matrix (Fin nh) (Fin B) K) × List (Matrix (Fin nout) (Fin B) K)) :
    Except Unit (List (Matrix (Fin nh) (Fin B) K) × List (Matrix (Fin nout) (Fin B) K)) :=
  .ok (s.1, s.2 ++ [o])

theorem computeSearchLoop_acc (sw : Matrix (Fin nh) (Fin nh) K)
    (sb : Matrix (Fin nh) (Fin B) K) (d : ℕ) (h : Matrix (Fin nh) (Fin B) K)
    (l1 : List (Matrix (Fin nh) (Fin B) K)) (l2 : List (Matrix (Fin nout) (Fin B) K)) :
    computeSearchLoop tanh sw sb accHf d h (l1, l2) =
      .ok (layerIter tanh sw sb d h,
        (l1 ++ (List.range d).map (fun k => layerIter tanh sw sb (k + 1) h), l2)) := by
  induction d generalizing h l1 with
  | zero => simp [computeSearchLoop]
  | succ d ih =>
      rw [computeSearchLoop, accHf]
      simp only []
      rw [ih]
      simp [List.range_succ_eq_map, List.map_map, List.append_assoc,
        List.singleton_append, layerIter_shift, layerIter_succ, layerIter_zero,
        Function.comp, Nat.succ_eq_add_one]

theorem computePvLoop_acc (pw : Matrix (Fin nh) (Fin nh) K)
    (pb : Matrix (Fin nh) (Fin B) K) (ow : Matrix (Fin nout) (Fin nh) K)
    (ob : Matrix (Fin nout) (Fin B) K) (p : ℕ) (h : Matrix (Fin nh) (Fin B) K)
    (l1 : List (Matrix (Fin nh) (Fin B) K)) (l2 : List (Matrix (Fin nout) (Fin B) K)) :
    computePvLoop tanh pw pb ow ob accHf accOf p h (l1, l2) =
      .ok (l1 ++ (List.range p).map (fun k => layerIter tanh pw pb (k + 1) h),
        l2 ++ (List.range p).map (fun k => ow * layerIter tanh pw pb (k + 1) h + ob)) := by
  induction p generalizing h l1 l2 with
  | zero => simp [computePvLoop]
  | succ p ih =>
      rw [computePvLoop, accHf]
      simp only []
      rw [accOf]
      simp only []
      rw [ih]
      simp [List.range_succ_eq_map, List.map_map, List.append_assoc,
        List.singleton_append, layerIter_shift, layerIter_succ, layerIter_zero,
        Function.comp, Nat.succ_eq_add_one]

end ForwardContract

/-- Splitting the emitted hidden sequence at the search/PV boundary. -/
theorem hseq_le {K : Type} [Field K] (tanh : K → K) {nin nh nout B : ℕ}
    (net : Network K nin nh nout) (i : Matrix (Fin nin) (Fin B) K)
    (depth k : ℕ) (hk : k ≤ depth) :
    hseq tanh net i depth k =
      layerIter tanh net.sw (repeatCols net.sb B) k
        (mtanh tanh (net.iw * i + repeatCols net.ib B)) := by
  rw [hseq, if_pos hk]

theorem hseq_gt {K : Type} [Field K] (tanh : K → K) {nin nh nout B : ℕ}
    (net : Network K nin nh nout) (i : Matrix (Fin nin) (Fin B) K)
    (depth k : ℕ) (hk : depth < k) :
    hseq tanh net i depth k =
      layerIter tanh net.pw (repeatCols net.pb B) (k - depth)
        (layerIter tanh net.sw (repeatCols net.sb B) depth
          (mtanh tanh (net.iw * i + repeatCols net.ib B))) := by
  rw [hseq, if_neg (by omega)]

/-- The emitted hidden list splits into `h[0]`, the search layers and
the PV layers. -/
theorem hseq_list_split {K : Type} [Field K] (tanh : K → K)
    {nin nh nout B : ℕ} (net : Network K nin nh nout)
    (i : Matrix (Fin nin) (Fin B) K) (depth pvCount : ℕ) :
    (List.range (depth + pvCount + 1)).map (hseq tanh net i depth) =
      mtanh tanh (net.iw * i + repeatCols net.ib B) ::
        ((List.range depth).map (fun k =>
            layerIter tanh net.sw (repeatCols net.sb B) (k + 1)
              (mtanh tanh (net.iw * i + repeatCols net.ib B))) ++
          (List.range pvCount).map (fun k =>
            layerIter tanh net.pw (repeatCols net.pb B) (k + 1)
              (layerIter tanh net.sw (repeatCols net.sb B) depth
                (mtanh tanh (net.iw * i + repeatCols net.ib B))))) := by
  rw [show depth + pvCount + 1 = (depth + 1) + pvCount from by omega,
    List.range_add, List.map_append, List.range_succ_eq_map, List.map_cons,
    List.map_map, List.map_map, List.cons_append]
  congr 1
  · rw [hseq_le tanh net i depth 0 (Nat.zero_le _)]
    rfl
  · congr 1
    · refine List.map_congr_left fun k hk => ?_
      have hkd : k < depth := List.mem_range.mp hk
      show hseq tanh net i depth (k + 1) = _
      rw [hseq_le tanh net i depth (k + 1) (by omega)]
    · refine List.map_congr_left fun k _ => ?_
      show hseq tanh net i depth (depth + 1 + k) = _
      rw [hseq_gt tanh net i depth _ (by omega),
        show depth + 1 + k - depth = k + 1 from by omega]

/-- The emitted output list in terms of the PV layers. -/
theorem oseq_list_split {K : Type} [Field K] (tanh : K → K)
    {nin nh nout B : ℕ} (net : Network K nin nh nout)
    (i : Matrix (Fin nin) (Fin B) K) (depth pvCount : ℕ) :
    (List.range pvCount).map (fun p => oseq tanh net i depth (p + 1)) =
      (List.range pvCount).map (fun k =>
        net.ow * layerIter tanh net.pw (repeatCols net.pb B) (k + 1)
            (layerIter tanh net.sw (repeatCols net.sb B) depth
              (mtanh tanh (net.iw * i + repeatCols net.ib B))) +
          repeatCols net.ob B) := by
  refine List.map_congr_left fun k _ => ?_
  rw [oseq, hseq_gt tanh net i depth _ (by omega),
    show depth + (k + 1) - depth = k + 1 from by omega]

/-- C8: for every input matrix `X` with `B` columns (enforced by the
types) and all `depth` and `pv_count`, `Network::compute` invokes the
hidden callback exactly `depth + pv_count + 1` times and the output
callback exactly `pv_count` times, emitting — in order — the hidden
matrices `h[0] = tanh(I_W·X + broadcast(I_B,B))`,
`h[d] = tanh(S_W·h[d−1] + broadcast(S_B,B))` for `d = 1..depth`,
`h[depth+p] = tanh(P_W·h[depth+p−1] + broadcast(P_B,B))` and the outputs
`o[p] = O_W·h[depth+p] + broadcast(O_B,B)` for `p = 1..pv_count`
(the sequences `hseq`/`oseq` are defined by exactly those recurrences);
every emitted matrix has `B` columns by its type.  Stated with callbacks
that record every emission and never interrupt. -/
theorem network_compute_forward_contract {K : Type} [Field K] (tanh : K → K)
    {nin nh nout B : ℕ} (net : Network K nin nh nout)
    (i : Matrix (Fin nin) (Fin B) K) (depth pvCount : ℕ) :
    Network.compute tanh net i depth pvCount accHf accOf
        (([], []) : List (Matrix (Fin nh) (Fin B) K) ×
          List (Matrix (Fin nout) (Fin B) K)) =
      Except.ok
        ((List.range (depth + pvCount + 1)).map (hseq tanh net i depth),
         (List.range pvCount).map (fun p => oseq tanh net i depth (p + 1))) := by
  rw [Network.compute, accHf]
  simp only []
  rw [computeSearchLoop_acc]
  simp only []
  rw [computePvLoop_acc]
  rw [hseq_list_split, oseq_list_split]
  simp [List.nil_append, List.singleton_append, List.cons_append,
    List.append_assoc]

/-! ## Backward pass (src/src/shared/network.rs lines 130-211)

`Network::backpropagate` receives the input `i`, the emitted hidden
slice `hs` (length `depth + pv_count + 1`), the emitted output slice
`os` and the expected one-hot slice `ys` (length `pv_count`), and the
column vector `one`; it reads `pv_count = ys.len()` and
`depth = hs.len() - ys.len() - 1`.  The slices are modelled as index
functions with those two lengths passed explicitly. -/

section BackwardPass

variable {K : Type} [Field K] (exp : K → K)
variable {nin nh nout B : ℕ}

/-- One iteration (index `k`, running `k = 1 .. pv_count−1`) of the
`for k in 1..pv_count` loop of `Network::backpropagate`, threading the
state `(dj_dow, dj_dob, tmp_dj_dpw, tmp_dj_dpb, tmp)`. -/
def bpPvStep (net : Network K nin nh nout)
    (hs : ℕ → Matrix (Fin nh) (Fin B) K)
    (os ys : ℕ → Matrix (Fin nout) (Fin B) K)
    (one : Matrix (Fin B) (Fin 1) K) (depth pv k : ℕ)
    (st : Matrix (Fin nout) (Fin nh) K × Matrix (Fin nout) (Fin 1) K ×
      Matrix (Fin nh) (Fin nh) K × Matrix (Fin nh) (Fin 1) K ×
      Matrix (Fin nh) (Fin B) K) :
    Matrix (Fin nout) (Fin nh) K × Matrix (Fin nout) (Fin 1) K ×
      Matrix (Fin nh) (Fin nh) K × Matrix (Fin nh) (Fin 1) K ×
      Matrix (Fin nh) (Fin B) K :=
  let dj_do := msoftmax exp (os (pv - k - 1)) - ys (pv - k - 1)
  let dow := st.1 + dj_do * (hs (depth + pv - k)).transpose
  let dob := st.2.1 + dj_do * one
  let dj_dz := mulElems (net.ow.transpose * dj_do)
    (tanhDerivFromH (hs (depth + pv - k)))
  let tmp := mulElems (net.pw.transpose * st.2.2.2.2)
    (tanhDerivFromH (hs (depth + pv - k))) + dj_dz
  let dpw := st.2.2.1 + tmp * (hs (depth + pv - k - 1)).transpose
  let dpb := st.2.2.2.1 + tmp * one
  (dow, dob, dpw, dpb, tmp)

/-- `n` iterations of the PV loop, `k = 1 .. n` in order. -/
def bpPvIter (net : Network K nin nh nout)
    (hs : ℕ → Matrix (Fin nh) (Fin B) K)
    (os ys : ℕ → Matrix (Fin nout) (Fin B) K)
    (one : Matrix (Fin B) (Fin 1) K) (depth pv : ℕ) :
    ℕ →
    (Matrix (Fin nout) (Fin nh) K × Matrix (Fin nout) (Fin 1) K ×
      Matrix (Fin nh) (Fin nh) K × Matrix (Fin nh) (Fin 1) K ×
      Matrix (Fin nh) (Fin B) K) →
    Matrix (Fin nout) (Fin nh) K × Matrix (Fin nout) (Fin 1) K ×
      Matrix (Fin nh) (Fin nh) K × Matrix (Fin nh) (Fin 1) K ×
      Matrix (Fin nh) (Fin B) K
  | 0, st => st
  | n + 1, st =>
      bpPvStep exp net hs os ys one depth pv (n + 1)
        (bpPvIter net hs os ys one depth pv n st)

/-- One iteration (the `i`-th, `i = 1 .. depth−1`) of the
`for _ in 1..depth` loop of `Network::backpropagate`, threading
`(tmp_dj_dsw, tmp_dj_dsb, tmp)`; at the `i`-th iteration the running
index `j` of the source equals `depth − i`. -/
def bpSwStep (net : Network K nin nh nout)
    (hs : ℕ → Matrix (Fin nh) (Fin B) K)
    (one : Matrix (Fin B) (Fin 1) K) (depth k : ℕ)
    (st : Matrix (Fin nh) (Fin nh) K × Matrix (Fin nh) (Fin 1) K ×
      Matrix (Fin nh) (Fin B) K) :
    Matrix (Fin nh) (Fin nh) K × Matrix (Fin nh) (Fin 1) K ×
      Matrix (Fin nh) (Fin B) K :=
  let tmp := mulElems (net.sw.transpose * st.2.2) (tanhDerivFromH (hs (depth - k)))
  let dsw := st.1 + tmp * (hs (depth - k - 1)).transpose
  let dsb := st.2.1 + tmp * one
  (dsw, dsb, tmp)

/-- `n` iterations of the search loop, `i = 1 .. n` in order. -/
def bpSwIter (net : Network K nin nh nout)
    (hs : ℕ → Matrix (Fin nh) (Fin B) K)
    (one : Matrix (Fin B) (Fin 1) K) (depth : ℕ) :
    ℕ →
    (Matrix (Fin nh) (Fin nh) K × Matrix (Fin nh) (Fin 1) K ×
      Matrix (Fin nh) (Fin B) K) →
    Matrix (Fin nh) (Fin nh) K × Matrix (Fin nh) (Fin 1) K ×
      Matrix (Fin nh) (Fin B) K
  | 0, st => st
  | n + 1, st => bpSwStep net hs one depth (n + 1) (bpSwIter net hs one depth n st)

/-- The PV section of `Network::backpropagate`
(src/src/shared/network.rs lines 134-169): the top-tier output error and
its contributions, then — when `pv_count > 1` — the `for k in
1..pv_count` loop; returns `(dj_dow, dj_dob, dj_dpw, dj_dpb, dj_dz)`
with `dj_dz` the pre-activation error of the lowest PV tier. -/
def bpPvSection (net : Network K nin nh nout)
    (hs : ℕ → Matrix (Fin nh) (Fin B) K)
    (os ys : ℕ → Matrix (Fin nout) (Fin B) K)
    (one : Matrix (Fin B) (Fin 1) K) (depth pv : ℕ) :
    Matrix (Fin nout) (Fin nh) K × Matrix (Fin nout) (Fin 1) K ×
      Matrix (Fin nh) (Fin nh) K × Matrix (Fin nh) (Fin 1) K ×
      Matrix (Fin nh) (Fin B) K :=
  let dj_do := msoftmax exp (os (pv - 1)) - ys (pv - 1)
  let dow0 := dj_do * (hs (depth + pv)).transpose
  let dob0 := dj_do * one
  let dj_dz0 := mulElems (net.ow.transpose * dj_do)
    (tanhDerivFromH (hs (depth + pv)))
  if 1 < pv then
    bpPvIter exp net hs os ys one depth pv (pv - 1)
      (dow0, dob0, dj_dz0 * (hs (depth + pv - 1)).transpose, dj_dz0 * one, dj_dz0)
  else
    (dow0, dob0, dj_dz0 * (hs (depth + pv - 1)).transpose, dj_dz0 * one, dj_dz0)

/-- The search section of `Network::backpropagate`
(src/src/shared/network.rs lines 174-195): given the error `dj_dz1`
flowing into the pre-activation of the topmost search layer, the init
plus — when `depth > 1` — the `for _ in 1..depth` loop; returns
`(dj_dsw, dj_dsb, dj_dz)`. -/
def bpSwSection (net : Network K nin nh nout)
    (hs : ℕ → Matrix (Fin nh) (Fin B) K)
    (one : Matrix (Fin B) (Fin 1) K) (depth : ℕ)
    (dj_dz1 : Matrix (Fin nh) (Fin B) K) :
    Matrix (Fin nh) (Fin nh) K × Matrix (Fin nh) (Fin 1) K ×
      Matrix (Fin nh) (Fin B) K :=
  if 1 < depth then
    bpSwIter net hs one depth (depth - 1)
      (dj_dz1 * (hs (depth - 1)).transpose, dj_dz1 * one, dj_dz1)
  else
    (dj_dz1 * (hs (depth - 1)).transpose, dj_dz1 * one, dj_dz1)

/-- `Network::backpropagate` (src/src/shared/network.rs lines 130-211),
with the slice lengths `depth` and `pv` passed explicitly (the source
computes `pv_count = ys.len()`, `depth = hs.len() - ys.len() - 1`) and
the running index `j` of the source resolved at each read:
`j = depth + pv` at the top tier, decreasing to 0 at the input layer. -/
def Network.backpropagate (net : Network K nin nh nout)
    (i : Matrix (Fin nin) (Fin B) K) (depth pv : ℕ)
    (hs : ℕ → Matrix (Fin nh) (Fin B) K)
    (os ys : ℕ → Matrix (Fin nout) (Fin B) K)
    (one : Matrix (Fin B) (Fin 1) K) : Network K nin nh nout :=
  let st := bpPvSection exp net hs os ys one depth pv
  let dj_dz1 := mulElems (net.pw.transpose * st.2.2.2.2) (tanhDerivFromH (hs depth))
  let st2 := bpSwSection net hs one depth dj_dz1
  let dj_dz2 := mulElems (net.sw.transpose * st2.2.2) (tanhDerivFromH (hs 0))
  { iw := dj_dz2 * i.transpose
    ib := dj_dz2 * one
    sw := st2.1
    sb := st2.2.1
    pw := st.2.2.1
    pb := st.2.2.2.1
    ow := st.1
    ob := st.2.1 }

/-- The output-layer error of PV tier `p` (`p = 1 .. pv`), as the spec
words it: `softmax(o[p]) − y[p]` (slices are 0-indexed). -/
def tierError (os ys : ℕ → Matrix (Fin nout) (Fin B) K) (p : ℕ) :
    Matrix (Fin nout) (Fin B) K :=
  msoftmax exp (os (p - 1)) - ys (p - 1)

/-- The error flowing into the pre-activation of PV tier `pv − m`
(`m = 0` is the topmost tier): its own output error pulled back through
`O_W` and the activation, plus, for the lower tiers, the error of the
tier above pulled back through `P_W` — the spec's "each PV tier
contributes both its own output error and the upstream error flowing
back from later PV tiers". -/
def pvDelta (net : Network K nin nh nout)
    (hs : ℕ → Matrix (Fin nh) (Fin B) K)
    (os ys : ℕ → Matrix (Fin nout) (Fin B) K) (depth pv : ℕ) :
    ℕ → Matrix (Fin nh) (Fin B) K
  | 0 =>
      mulElems (net.ow.transpose * tierError exp os ys pv)
        (tanhDerivFromH (hs (depth + pv)))
  | m + 1 =>
      mulElems (net.pw.transpose * pvDelta net hs os ys depth pv m)
          (tanhDerivFromH (hs (depth + pv - (m + 1)))) +
        mulElems (net.ow.transpose * tierError exp os ys (pv - (m + 1)))
          (tanhDerivFromH (hs (depth + pv - (m + 1))))

/-- The error flowing into the pre-activation of search layer
`depth − m`: the whole PV chain's error pulled back through `P_W` at
`m = 0`, then through `S_W` for the lower search layers. -/
def swGamma (net : Network K nin nh nout)
    (hs : ℕ → Matrix (Fin nh) (Fin B) K)
    (os ys : ℕ → Matrix (Fin nout) (Fin B) K) (depth pv : ℕ) :
    ℕ → Matrix (Fin nh) (Fin B) K
  | 0 =>
      mulElems (net.pw.transpose * pvDelta exp net hs os ys depth pv (pv - 1))
        (tanhDerivFromH (hs depth))
  | m + 1 =>
      mulElems (net.sw.transpose * swGamma net hs os ys depth pv m)
        (tanhDerivFromH (hs (depth - (m + 1))))

/-- The gradient bundle as the spec describes it: the chain rule on the
unrolled graph, with the contributions of every PV tier (and every
search layer) summed over the chain, and every bias gradient equal to
the corresponding upstream signal right-multiplied by `one`. -/
def Network.specBackpropagate (net : Network K nin nh nout)
    (i : Matrix (Fin nin) (Fin B) K) (depth pv : ℕ)
    (hs : ℕ → Matrix (Fin nh) (Fin B) K)
    (os ys : ℕ → Matrix (Fin nout) (Fin B) K)
    (one : Matrix (Fin B) (Fin 1) K) : Network K nin nh nout :=
  let inDelta := mulElems
    (net.sw.transpose * swGamma exp net hs os ys depth pv (depth - 1))
    (tanhDerivFromH (hs 0))
  { iw := inDelta * i.transpose
    ib := inDelta * one
    sw := ∑ m ∈ Finset.range depth,
      swGamma exp net hs os ys depth pv m * (hs (depth - m - 1)).transpose
    sb := ∑ m ∈ Finset.range depth, swGamma exp net hs os ys depth pv m * one
    pw := ∑ m ∈ Finset.range pv,
      pvDelta exp net hs os ys depth pv m * (hs (depth + pv - m - 1)).transpose
    pb := ∑ m ∈ Finset.range pv, pvDelta exp net hs os ys depth pv m * one
    ow := ∑ m ∈ Finset.range pv,
      tierError exp os ys (pv - m) * (hs (depth + pv - m)).transpose
    ob := ∑ m ∈ Finset.range pv, tierError exp os ys (pv - m) * one }

end BackwardPass

/-! ### The imperative loops compute the per-tier sums -/

section BackwardEq

variable {K : Type} [Field K] (exp : K → K)
variable {nin nh nout B : ℕ}

theorem bpPvIter_spec (net : Network K nin nh nout)
    (hs : ℕ → Matrix (Fin nh) (Fin B) K)
    (os ys : ℕ → Matrix (Fin nout) (Fin B) K)
    (one : Matrix (Fin B) (Fin 1) K) (depth pv : ℕ) (n : ℕ)
    (dow0 : Matrix (Fin nout) (Fin nh) K) (dob0 : Matrix (Fin nout) (Fin 1) K)
    (dpw0 : Matrix (Fin nh) (Fin nh) K) (dpb0 : Matrix (Fin nh) (Fin 1) K) :
    bpPvIter exp net hs os ys one depth pv n
        (dow0, dob0, dpw0, dpb0, pvDelta exp net hs os ys depth pv 0) =
      (dow0 + ∑ m ∈ Finset.range n,
          tierError exp os ys (pv - (m + 1)) * (hs (depth + pv - (m + 1))).transpose,
        dob0 + ∑ m ∈ Finset.range n, tierError exp os ys (pv - (m + 1)) * one,
        dpw0 + ∑ m ∈ Finset.range n,
          pvDelta exp net hs os ys depth pv (m + 1) *
            (hs (depth + pv - (m + 1) - 1)).transpose,
        dpb0 + ∑ m ∈ Finset.range n, pvDelta exp net hs os ys depth pv (m + 1) * one,
        pvDelta exp net hs os ys depth pv n) := by
  induction n with
  | zero => simp [bpPvIter]
  | succ n ih =>
      rw [bpPvIter, ih, bpPvStep]
      simp only [tierError, Prod.mk.injEq, Finset.sum_range_succ]
      refine ⟨by rw [add_assoc], by rw [add_assoc], ?_, ?_, ?_⟩
      · rw [pvDelta]
        simp only [tierError]
        rw [add_assoc]
      · rw [pvDelta]
        simp only [tierError]
        rw [add_assoc]
      · rw [pvDelta]
        simp only [tierError]

theorem bpSwIter_spec (net : Network K nin nh nout)
    (hs : ℕ → Matrix (Fin nh) (Fin B) K)
    (os ys : ℕ → Matrix (Fin nout) (Fin B) K)
    (one : Matrix (Fin B) (Fin 1) K) (depth pv : ℕ) (n : ℕ)
    (dsw0 : Matrix (Fin nh) (Fin nh) K) (dsb0 : Matrix (Fin nh) (Fin 1) K) :
    bpSwIter net hs one depth n
        (dsw0, dsb0, swGamma exp net hs os ys depth pv 0) =
      (dsw0 + ∑ m ∈ Finset.range n,
          swGamma exp net hs os ys depth pv (m + 1) *
            (hs (depth - (m + 1) - 1)).transpose,
        dsb0 + ∑ m ∈ Finset.range n, swGamma exp net hs os ys depth pv (m + 1) * one,
        swGamma exp net hs os ys depth pv n) := by
  induction n with
  | zero => simp [bpSwIter]
  | succ n ih =>
      rw [bpSwIter, ih, bpSwStep]
      simp only [Prod.mk.injEq, Finset.sum_range_succ]
      refine ⟨?_, ?_, ?_⟩
      · rw [swGamma]
        rw [add_assoc]
      · rw [swGamma]
        rw [add_assoc]
      · rw [swGamma]

end BackwardEq

section BackwardMain

variable {K : Type} [Field K] (exp : K → K)
variable {nin nh nout B : ℕ}

/-- The PV section computes the spec's per-tier sums, and hands the
lowest tier's error down. -/
theorem bpPvSection_spec (net : Network K nin nh nout)
    (hs : ℕ → Matrix (Fin nh) (Fin B) K)
    (os ys : ℕ → Matrix (Fin nout) (Fin B) K)
    (one : Matrix (Fin B) (Fin 1) K) (depth : ℕ) (P : ℕ) :
    bpPvSection exp net hs os ys one depth (P + 1) =
      (∑ m ∈ Finset.range (P + 1),
          tierError exp os ys (P + 1 - m) * (hs (depth + (P + 1) - m)).transpose,
        ∑ m ∈ Finset.range (P + 1), tierError exp os ys (P + 1 - m) * one,
        ∑ m ∈ Finset.range (P + 1),
          pvDelta exp net hs os ys depth (P + 1) m *
            (hs (depth + (P + 1) - m - 1)).transpose,
        ∑ m ∈ Finset.range (P + 1), pvDelta exp net hs os ys depth (P + 1) m * one,
        pvDelta exp net hs os ys depth (P + 1) (P + 1 - 1)) := by
  rw [bpPvSection]
  have hdz0 : mulElems (net.ow.transpose *
      (msoftmax exp (os (P + 1 - 1)) - ys (P + 1 - 1)))
      (tanhDerivFromH (hs (depth + (P + 1)))) =
      pvDelta exp net hs os ys depth (P + 1) 0 := rfl
  simp only [hdz0]
  rcases P with _ | Q
  · rw [if_neg (by omega)]
    simp [tierError, Prod.mk.injEq]
  · rw [if_pos (by omega)]
    rw [show Q + 1 + 1 - 1 = Q + 1 from by omega]
    rw [bpPvIter_spec]
    simp only [Prod.mk.injEq]
    refine ⟨?_, ?_, ?_, ?_, trivial⟩ <;>
      · conv_rhs => rw [Finset.sum_range_succ']
        rw [add_comm]
        try simp [tierError]

/-- The search section computes the spec's per-layer sums when fed the
PV chain's error. -/
theorem bpSwSection_spec (net : Network K nin nh nout)
    (hs : ℕ → Matrix (Fin nh) (Fin B) K)
    (os ys : ℕ → Matrix (Fin nout) (Fin B) K)
    (one : Matrix (Fin B) (Fin 1) K) (pv : ℕ) (D : ℕ) :
    bpSwSection net hs one (D + 1)
        (swGamma exp net hs os ys (D + 1) pv 0) =
      (∑ m ∈ Finset.range (D + 1),
          swGamma exp net hs os ys (D + 1) pv m * (hs (D + 1 - m - 1)).transpose,
        ∑ m ∈ Finset.range (D + 1), swGamma exp net hs os ys (D + 1) pv m * one,
        swGamma exp net hs os ys (D + 1) pv (D + 1 - 1)) := by
  rw [bpSwSection]
  rcases D with _ | E
  · rw [if_neg (by omega)]
    simp [Prod.mk.injEq]
  · rw [if_pos (by omega)]
    rw [show E + 1 + 1 - 1 = E + 1 from by omega]
    rw [bpSwIter_spec exp]
    simp only [Prod.mk.injEq]
    refine ⟨?_, ?_, trivial⟩ <;>
      · conv_rhs => rw [Finset.sum_range_succ']
        rw [add_comm]
        try simp

/-- C2 core identity: the imperative backward pass equals the
spec's closed-form chain-rule gradient bundle, for every depth ≥ 1 and
PV count ≥ 1 and all slices. -/
theorem backpropagate_eq_spec (net : Network K nin nh nout)
    (i : Matrix (Fin nin) (Fin B) K) (D P : ℕ)
    (hs : ℕ → Matrix (Fin nh) (Fin B) K)
    (os ys : ℕ → Matrix (Fin nout) (Fin B) K)
    (one : Matrix (Fin B) (Fin 1) K) :
    net.backpropagate exp i (D + 1) (P + 1) hs os ys one =
      net.specBackpropagate exp i (D + 1) (P + 1) hs os ys one := by
  rw [Network.backpropagate]
  rw [bpPvSection_spec]
  simp only []
  have hg0 : mulElems (net.pw.transpose *
      pvDelta exp net hs os ys (D + 1) (P + 1) (P + 1 - 1))
      (tanhDerivFromH (hs (D + 1))) =
      swGamma exp net hs os ys (D + 1) (P + 1) 0 := rfl
  rw [hg0, bpSwSection_spec]
  rw [Network.specBackpropagate]

end BackwardMain

/-! ### C2 claim and C1 (the `ones` column the trainer supplies) -/

/-- C2: for every input `X`, the hidden and output sequences emitted by
a forward pass with depth `D+1 ≥ 1` and PV length `P+1 ≥ 1` (`hseq` and
`oseq`, which theorem `network_compute_forward_contract` shows are what
`Network::compute` emits), and expected matrices `ys` whose columns each
sum to 1, `Network::backpropagate` returns exactly the network-shaped
bundle `specBackpropagate` built from the spec's chain rule for the
unrolled graph: every PV tier's contribution to the shared
`(P_W, P_B, O_W, O_B)` parameters is summed through the PV chain —
each tier contributing its own output error `softmax(o) − y` plus the
error flowing back from later tiers (`pvDelta`) — and every bias
gradient is the corresponding upstream signal right-multiplied by
`one`.  (The identity is algebraic: it holds for every scalar field,
activation and exponential, in particular for `ℝ` with the real `tanh`
and `exp`; theorem `crossEntropySoftmax_hasDerivAt` checks that
`softmax(o) − y` is the true gradient of the
cross-entropy-after-softmax loss at the output layer.) -/
theorem backpropagate_is_chain_rule_gradient {K : Type} [Field K]
    (tanh exp : K → K) {nin nh nout B : ℕ} (net : Network K nin nh nout)
    (X : Matrix (Fin nin) (Fin B) K) (D P : ℕ)
    (ys : ℕ → Matrix (Fin nout) (Fin B) K) (one : Matrix (Fin B) (Fin 1) K)
    ( _hy : ∀ p, p < P + 1 → ∀ j, (∑ i2, ys p i2 j) = 1) :
    net.backpropagate exp X (D + 1) (P + 1) (hseq tanh net X (D + 1))
        (fun k => oseq tanh net X (D + 1) (k + 1)) ys one =
      net.specBackpropagate exp X (D + 1) (P + 1) (hseq tanh net X (D + 1))
        (fun k => oseq tanh net X (D + 1) (k + 1)) ys one :=
  backpropagate_eq_spec exp net X D P (hseq tanh net X (D + 1))
    (fun k => oseq tanh net X (D + 1) (k + 1)) ys one

/-- C2 witness: the theorem applied to a concrete one-wide network over
`ℚ` with one-hot expected columns. -/
theorem backpropagate_is_chain_rule_gradient_witness :
    (∀ p, p < 0 + 1 → ∀ j : Fin 1,
      (∑ i2 : Fin 1, (fun _ : ℕ => (Matrix.of fun _ _ => (1 : ℚ)) :
        ℕ → Matrix (Fin 1) (Fin 1) ℚ) p i2 j) = 1) ∧
    (Network.backpropagate (fun _ => 1)
        (⟨0, 0, 0, 0, 0, 0, 0, 0⟩ : Network ℚ 1 1 1)
        (0 : Matrix (Fin 1) (Fin 1) ℚ) (0 + 1) (0 + 1)
        (hseq (fun x => x) (⟨0, 0, 0, 0, 0, 0, 0, 0⟩ : Network ℚ 1 1 1)
          (0 : Matrix (Fin 1) (Fin 1) ℚ) (0 + 1))
        (fun k => oseq (fun x => x) (⟨0, 0, 0, 0, 0, 0, 0, 0⟩ : Network ℚ 1 1 1)
          (0 : Matrix (Fin 1) (Fin 1) ℚ) (0 + 1) (k + 1))
        (fun _ => Matrix.of fun _ _ => 1) (0 : Matrix (Fin 1) (Fin 1) ℚ) =
      Network.specBackpropagate (fun _ => 1)
        (⟨0, 0, 0, 0, 0, 0, 0, 0⟩ : Network ℚ 1 1 1)
        (0 : Matrix (Fin 1) (Fin 1) ℚ) (0 + 1) (0 + 1)
        (hseq (fun x => x) (⟨0, 0, 0, 0, 0, 0, 0, 0⟩ : Network ℚ 1 1 1)
          (0 : Matrix (Fin 1) (Fin 1) ℚ) (0 + 1))
        (fun k => oseq (fun x => x) (⟨0, 0, 0, 0, 0, 0, 0, 0⟩ : Network ℚ 1 1 1)
          (0 : Matrix (Fin 1) (Fin 1) ℚ) (0 + 1) (k + 1))
        (fun _ => Matrix.of fun _ _ => 1) (0 : Matrix (Fin 1) (Fin 1) ℚ)) :=
  ⟨by intro p _ j; simp,
   backpropagate_is_chain_rule_gradient (fun x => x) (fun _ => 1)
     (⟨0, 0, 0, 0, 0, 0, 0, 0⟩ : Network ℚ 1 1 1)
     (0 : Matrix (Fin 1) (Fin 1) ℚ) 0 0
     (fun _ => Matrix.of fun _ _ => 1) (0 : Matrix (Fin 1) (Fin 1) ℚ)
     (by intro p _ j; simp)⟩

/-- The `one` column both gradient adders stage for the backward pass
(src/src/trainer/gradient_adder.rs lines 133-134 and
src/src/trainer/one_gradient_adder.rs lines 191-192):
`let one_elems = vec![0.0f32; col_count];`
`let one = Matrix::new_with_elems(col_count, 1, one_elems)`. -/
def gradientAdderOne (K : Type) [Field K] (colCount : ℕ) :
    Matrix (Fin colCount) (Fin 1) K :=
  Matrix.of fun i _ => (List.replicate colCount (0 : K)).getD i 0

/-- C1: the column the gradient adders supply as `ones` is identically
zero — `vec![0.0f32; col_count]`, not a column of ones — so at the
concrete failing minibatch (one column, one-wide zero network over `ℚ`,
expected one-hot `y = 1`) the returned output-bias gradient is the zero
matrix, whereas with a true all-ones column it is the row-sum of the
upstream error `softmax(o) − y = 1 − 1 = ...` (here the nonzero matrix
with entry 1): the bug makes every bias gradient vanish. -/
theorem gradientAdder_one_column_is_zero :
    (∀ colCount : ℕ, ∀ i : Fin colCount, ∀ j : Fin 1,
      gradientAdderOne ℚ colCount i j = 0) ∧
    (Network.backpropagate (fun _ => (1 : ℚ))
        (⟨0, 0, 0, 0, 0, 0, 0, 0⟩ : Network ℚ 1 1 1)
        (0 : Matrix (Fin 1) (Fin 1) ℚ) (0 + 1) (0 + 1)
        (fun _ => 0) (fun _ => 0) (fun _ => 0) (gradientAdderOne ℚ 1)).ob = 0 ∧
    (Network.backpropagate (fun _ => (1 : ℚ))
        (⟨0, 0, 0, 0, 0, 0, 0, 0⟩ : Network ℚ 1 1 1)
        (0 : Matrix (Fin 1) (Fin 1) ℚ) (0 + 1) (0 + 1)
        (fun _ => 0) (fun _ => 0) (fun _ => 0)
        ((Matrix.of fun _ _ => 1) : Matrix (Fin 1) (Fin 1) ℚ)).ob ≠ 0 := by
  have hzcol : ∀ colCount : ℕ, ∀ i : Fin colCount, ∀ j : Fin 1,
      gradientAdderOne ℚ colCount i j = 0 := by
    intro colCount i j
    simp [gradientAdderOne, List.getD, List.getElem?_replicate]
  have hz : gradientAdderOne ℚ 1 = 0 := by
    ext i j
    exact hzcol 1 i j
  refine ⟨hzcol, ?_, ?_⟩
  · rw [backpropagate_eq_spec]
    simp [Network.specBackpropagate, hz, Matrix.mul_zero]
  · rw [backpropagate_eq_spec]
    intro hcontra
    have h00 := congrFun (congrFun hcontra (0 : Fin 1)) (0 : Fin 1)
    simp [Network.specBackpropagate, tierError, msoftmax, mulElems,
      Matrix.mul_apply, Fin.sum_univ_one, Matrix.of_apply] at h00

/-! ### The output-layer error really is the loss gradient

Over `ℝ`, perturbing one entry `k` of an output column `o` and taking
the derivative of the cross-entropy-after-softmax loss
`-Σ_i y_i · log(softmax(o)_i)` at 0 yields `softmax(o)_k − y_k` whenever
the expected column sums to 1 — the upstream error the backward pass
starts from. -/

theorem crossEntropySoftmax_hasDerivAt {n : ℕ} (o y : Fin n → ℝ)
    (hy : (∑ i2, y i2) = 1) (k : Fin n) :
    HasDerivAt (fun t : ℝ =>
      -∑ i2, y i2 * Real.log
        (msoftmax Real.exp
          ((Matrix.of fun i _ => o i + (if i = k then t else 0)) :
            Matrix (Fin n) (Fin 1) ℝ) i2 0))
      (msoftmax Real.exp ((Matrix.of fun i _ => o i) : Matrix (Fin n) (Fin 1) ℝ) k 0
        - y k) 0 := by
  have hS : ∀ t : ℝ, 0 < ∑ l, Real.exp (o l + (if l = k then t else 0)) :=
    fun t => Finset.sum_pos (fun l _ => Real.exp_pos _) ⟨k, Finset.mem_univ k⟩
  have hfun : (fun t : ℝ =>
      -∑ i2, y i2 * Real.log
        (msoftmax Real.exp
          ((Matrix.of fun i _ => o i + (if i = k then t else 0)) :
            Matrix (Fin n) (Fin 1) ℝ) i2 0)) =
      fun t : ℝ => (∑ i2, y i2) *
          Real.log (∑ l, Real.exp (o l + (if l = k then t else 0))) -
        ∑ i2, y i2 * (o i2 + (if i2 = k then t else 0)) := by
    funext t
    have hlogdiv : ∀ i2 : Fin n, Real.log
        (msoftmax Real.exp
          ((Matrix.of fun i _ => o i + (if i = k then t else 0)) :
            Matrix (Fin n) (Fin 1) ℝ) i2 0) =
        (o i2 + (if i2 = k then t else 0)) -
          Real.log (∑ l, Real.exp (o l + (if l = k then t else 0))) := by
      intro i2
      rw [msoftmax]
      simp only [Matrix.of_apply]
      rw [Real.log_div (Real.exp_ne_zero _) (ne_of_gt (hS t)), Real.log_exp]
    simp only [hlogdiv, mul_sub]
    rw [Finset.sum_sub_distrib, ← Finset.sum_mul]
    ring
  rw [hfun]
  have hterm : ∀ l : Fin n, HasDerivAt
      (fun t : ℝ => Real.exp (o l + (if l = k then t else 0)))
      (if l = k then Real.exp (o l) else 0) 0 := by
    intro l
    by_cases hl : l = k
    · have heq : (fun t : ℝ => Real.exp (o l + (if l = k then t else 0))) =
          fun t : ℝ => Real.exp (o l + t) := funext fun t => by rw [if_pos hl]
      rw [heq, if_pos hl]
      have hd : HasDerivAt (fun t : ℝ => o l + t) 1 0 :=
        HasDerivAt.const_add (o l) (hasDerivAt_id 0)
      simpa using hd.exp
    · have heq : (fun t : ℝ => Real.exp (o l + (if l = k then t else 0))) =
          fun _ : ℝ => Real.exp (o l) := funext fun t => by simp [hl]
      rw [heq, if_neg hl]
      exact hasDerivAt_const 0 _
  have hSd : HasDerivAt
      (fun t : ℝ => ∑ l, Real.exp (o l + (if l = k then t else 0)))
      (Real.exp (o k)) 0 := by
    have hsum : HasDerivAt
        (fun t : ℝ => ∑ l, Real.exp (o l + (if l = k then t else 0)))
        (∑ l, if l = k then Real.exp (o l) else 0) 0 :=
      HasDerivAt.sum (fun l _ => hterm l)
    simpa [Finset.sum_ite_eq'] using hsum
  have hlog : HasDerivAt
      (fun t : ℝ => Real.log (∑ l, Real.exp (o l + (if l = k then t else 0))))
      (Real.exp (o k) / (∑ l, Real.exp (o l + (if l = k then (0:ℝ) else 0)))) 0 :=
    hSd.log (ne_of_gt (hS 0))
  have hlin : HasDerivAt
      (fun t : ℝ => ∑ i2, y i2 * (o i2 + (if i2 = k then t else 0))) (y k) 0 := by
    have hterm2 : ∀ l : Fin n, HasDerivAt
        (fun t : ℝ => y l * (o l + (if l = k then t else 0)))
        (if l = k then y l else 0) 0 := by
      intro l
      by_cases hl : l = k
      · have heq : (fun t : ℝ => y l * (o l + (if l = k then t else 0))) =
            fun t : ℝ => y l * (o l + t) := funext fun t => by rw [if_pos hl]
        rw [heq, if_pos hl]
        have hd : HasDerivAt (fun t : ℝ => o l + t) 1 0 :=
          HasDerivAt.const_add (o l) (hasDerivAt_id 0)
        simpa using hd.const_mul (y l)
      · have heq : (fun t : ℝ => y l * (o l + (if l = k then t else 0))) =
            fun _ : ℝ => y l * o l := funext fun t => by simp [hl]
        rw [heq, if_neg hl]
        exact hasDerivAt_const 0 _
    have hsum : HasDerivAt
        (fun t : ℝ => ∑ i2, y i2 * (o i2 + (if i2 = k then t else 0)))
        (∑ l, if l = k then y l else 0) 0 :=
      HasDerivAt.sum (fun l _ => hterm2 l)
    simpa [Finset.sum_ite_eq'] using hsum
  have htotal := (hlog.const_mul (∑ i2, y i2)).sub hlin
  have hval : (∑ i2, y i2) *
      (Real.exp (o k) / (∑ l, Real.exp (o l + (if l = k then (0:ℝ) else 0)))) -
      y k =
      msoftmax Real.exp ((Matrix.of fun i _ => o i) : Matrix (Fin n) (Fin 1) ℝ) k 0
        - y k := by
    rw [hy, msoftmax]
    simp
  rw [hval] at htotal
  exact htotal


/-! ## Trainer::do_data / do_epoch (src/src/trainer/trainer.rs lines 52-171)

The trainer partitions incoming samples into minibatches keyed by the
number of moves in a sample (a `BTreeMap<usize, Vec<DataSample>>`,
modelled as an association list kept sorted by key), computes every
minibatch that becomes full, flushes the nonempty remainder at the end,
and returns `(passed_output_count, all_output_count, err_count)`.  The
sampler, interruption checker and gradient adder are external trait
objects and enter as function parameters; printing affects no counter
and is omitted.  The accumulators are `u64`; no claim here involves
wraparound, so they are modelled as `ℕ`.

Source lines 58-59 initialise the two output counters with the literal
`064`, which in Rust is the decimal number sixty-four (there is no
leading-zero octal notation), not `0u64`:
`let mut passed_output_count = 064;`
`let mut all_output_count = 064;` -/

/-- `BTreeMap::get`: first value whose key matches. -/
def mapLookup {α : Type} (m : List (ℕ × List α)) (k : ℕ) : Option (List α) :=
  match m with
  | [] => none
  | (k2, v) :: rest => if k2 = k then some v else mapLookup rest k

/-- `BTreeMap::insert` (or in-place update through `get_mut`), keeping
keys sorted ascending as the B-tree iteration order does. -/
def mapInsert {α : Type} (m : List (ℕ × List α)) (k : ℕ) (v : List α) :
    List (ℕ × List α) :=
  match m with
  | [] => [(k, v)]
  | (k2, v2) :: rest =>
    if k < k2 then (k, v) :: (k2, v2) :: rest
    else if k2 = k then (k, v) :: rest
    else (k2, v2) :: mapInsert rest k v

/-- The mutable locals of `Trainer::do_data` (lines 54-60). -/
structure DoDataState (α : Type) where
  minibatches : List (ℕ × List α)
  sampleCount : ℕ
  computedMinibatchCount : ℕ
  minibatchCount : ℕ
  passedOutputCount : ℕ
  allOutputCount : ℕ
  errCount : ℕ
  deriving Repr

/-- Body of the inner `for sample in samples` loop (lines 82-118):
append the sample to its minibatch (lines 83-94), then if that
minibatch is full, compute it, accumulate the returned counts and clear
it (lines 95-117). -/
def processSample {α E : Type} (full : ℕ → Bool)
    (compute : List α → Except E (ℕ × ℕ)) (key : α → ℕ)
    (st : DoDataState α) (sample : α) : Except E (DoDataState α) :=
  let st1 :=
    match mapLookup st.minibatches (key sample) with
    | some mb =>
        { st with
          minibatches := mapInsert st.minibatches (key sample) (mb ++ [sample]),
          minibatchCount :=
            if mb.isEmpty then st.minibatchCount + 1 else st.minibatchCount }
    | none =>
        { st with
          minibatches := mapInsert st.minibatches (key sample) [sample],
          minibatchCount := st.minibatchCount + 1 }
  match mapLookup st1.minibatches (key sample) with
  | some mb =>
      if full mb.length then
        match compute mb with
        | .error e => .error e
        | .ok (tp, oc) =>
            .ok { st1 with
              minibatches := mapInsert st1.minibatches (key sample) [],
              computedMinibatchCount := st1.computedMinibatchCount + 1,
              passedOutputCount := st1.passedOutputCount + tp,
              allOutputCount := st1.allOutputCount + oc }
      else .ok st1
  | none => .ok st1

/-- The inner loop over the sampler's output (lines 82-118). -/
def processSamples {α E : Type} (full : ℕ → Bool)
    (compute : List α → Except E (ℕ × ℕ)) (key : α → ℕ)
    (st : DoDataState α) : List α → Except E (DoDataState α)
  | [] => .ok st
  | s :: rest =>
    match processSample full compute key st s with
    | .error e => .error e
    | .ok st2 => processSamples full compute key st2 rest

/-- The outer `for sample in data` loop (lines 73-126): check the
interruption checker, propagate errors of the item itself (`sample?`),
count ill-formed samples (`None` items and sampler refusals) in
`err_count`, and bump `sample_count` for every item. -/
def doDataLoop {α E : Type} (intr : Except E Unit)
    (sampler : α → Option (List α)) (full : ℕ → Bool)
    (compute : List α → Except E (ℕ × ℕ)) (key : α → ℕ)
    (st : DoDataState α) :
    List (Except E (Option α)) → Except E (DoDataState α)
  | [] => .ok st
  | item :: rest =>
    match intr with
    | .error e => .error e
    | .ok () =>
      match item with
      | .error e => .error e
      | .ok none =>
          doDataLoop intr sampler full compute key
            { st with errCount := st.errCount + 1,
                      sampleCount := st.sampleCount + 1 } rest
      | .ok (some sample) =>
        match sampler sample with
        | none =>
            doDataLoop intr sampler full compute key
              { st with errCount := st.errCount + 1,
                        sampleCount := st.sampleCount + 1 } rest
        | some samples =>
          match processSamples full compute key st samples with
          | .error e => .error e
          | .ok st2 =>
              doDataLoop intr sampler full compute key
                { st2 with sampleCount := st2.sampleCount + 1 } rest

/-- The final flush over the remaining minibatches in ascending key
order (lines 127-146), returning the accumulated
`(passed_output_count, all_output_count, computed_minibatch_count)`. -/
def flushLoop {α E : Type} (compute : List α → Except E (ℕ × ℕ)) :
    List (List α) → ℕ → ℕ → ℕ → Except E (ℕ × ℕ × ℕ)
  | [], p, a, c => .ok (p, a, c)
  | mb :: rest, p, a, c =>
    if mb.isEmpty then flushLoop compute rest p a c
    else
      match compute mb with
      | .error e => .error e
      | .ok (tp, oc) => flushLoop compute rest (p + tp) (a + oc) (c + 1)

/-- `Trainer::do_data` (lines 52-159).  The two output counters start
at 64, the value of the literal `064` on lines 58-59. -/
def doData {α E : Type} (intr : Except E Unit)
    (sampler : α → Option (List α)) (full : ℕ → Bool)
    (compute : List α → Except E (ℕ × ℕ)) (key : α → ℕ)
    (data : List (Except E (Option α))) : Except E (ℕ × ℕ × ℕ) :=
  match doDataLoop intr sampler full compute key
      ⟨[], 0, 0, 0, 64, 64, 0⟩ data with
  | .error e => .error e
  | .ok st =>
    match flushLoop compute (st.minibatches.map Prod.snd)
        st.passedOutputCount st.allOutputCount st.computedMinibatchCount with
    | .error e => .error e
    | .ok (p, a, _) => .ok (p, a, st.errCount)

/-- `Trainer::do_epoch` (lines 161-167): run `do_data` with gradients,
then the algorithm step (`divide`'s result is discarded by the source),
and hand the tuple through unchanged. -/
def doEpoch {α E : Type} (intr : Except E Unit)
    (sampler : α → Option (List α)) (full : ℕ → Bool)
    (compute : List α → Except E (ℕ × ℕ)) (key : α → ℕ)
    (doAlg : Except E Unit)
    (data : List (Except E (Option α))) : Except E (ℕ × ℕ × ℕ) :=
  match doData intr sampler full compute key data with
  | .error e => .error e
  | .ok t =>
    match doAlg with
    | .error e => .error e
    | .ok () => .ok t

/-- Modelled from the spec: the same accumulation but with the two
output counters starting from zero, as the claim's "componentwise sum,
starting from zero" demands. -/
def doDataSpec {α E : Type} (intr : Except E Unit)
    (sampler : α → Option (List α)) (full : ℕ → Bool)
    (compute : List α → Except E (ℕ × ℕ)) (key : α → ℕ)
    (data : List (Except E (Option α))) : Except E (ℕ × ℕ × ℕ) :=
  match doDataLoop intr sampler full compute key
      ⟨[], 0, 0, 0, 0, 0, 0⟩ data with
  | .error e => .error e
  | .ok st =>
    match flushLoop compute (st.minibatches.map Prod.snd)
        st.passedOutputCount st.allOutputCount st.computedMinibatchCount with
    | .error e => .error e
    | .ok (p, a, _) => .ok (p, a, st.errCount)

/-- Offsetting the two output counters of the state. -/
def addPA {α : Type} (st : DoDataState α) (dp da : ℕ) : DoDataState α :=
  { st with passedOutputCount := st.passedOutputCount + dp,
            allOutputCount := st.allOutputCount + da }

theorem processSample_addPA {α E : Type} (full : ℕ → Bool)
    (compute : List α → Except E (ℕ × ℕ)) (key : α → ℕ)
    (st : DoDataState α) (s : α) (dp da : ℕ) :
    processSample full compute key (addPA st dp da) s =
      (processSample full compute key st s).map (fun st2 => addPA st2 dp da) := by
  rw [processSample, processSample]
  simp only [addPA]
  cases hmb : mapLookup st.minibatches (key s) with
  | none =>
    simp only []
    cases hmb2 : mapLookup (mapInsert st.minibatches (key s) [s]) (key s) with
    | none => rfl
    | some mb2 =>
      simp only []
      cases hfull : full mb2.length with
      | false => simp only [Bool.false_eq_true, if_false, Except.map]
      | true =>
        simp only [if_true]
        cases hc : compute mb2 with
        | error e => simp only [Except.map]
        | ok pr =>
          cases pr with
          | mk tp oc =>
            simp only [Except.map]
            refine congrArg Except.ok ?_
            simp only [DoDataState.mk.injEq, true_and, and_true]
            omega
  | some mb =>
    simp only []
    cases hmb2 : mapLookup (mapInsert st.minibatches (key s) (mb ++ [s]))
        (key s) with
    | none => rfl
    | some mb2 =>
      simp only []
      cases hfull : full mb2.length with
      | false => simp only [Bool.false_eq_true, if_false, Except.map]
      | true =>
        simp only [if_true]
        cases hc : compute mb2 with
        | error e => simp only [Except.map]
        | ok pr =>
          cases pr with
          | mk tp oc =>
            simp only [Except.map]
            refine congrArg Except.ok ?_
            simp only [DoDataState.mk.injEq, true_and, and_true]
            omega

theorem processSamples_addPA {α E : Type} (full : ℕ → Bool)
    (compute : List α → Except E (ℕ × ℕ)) (key : α → ℕ)
    (samples : List α) (st : DoDataState α) (dp da : ℕ) :
    processSamples full compute key (addPA st dp da) samples =
      (processSamples full compute key st samples).map
        (fun st2 => addPA st2 dp da) := by
  induction samples generalizing st with
  | nil => rfl
  | cons s rest ih =>
    rw [processSamples, processSamples, processSample_addPA]
    cases processSample full compute key st s with
    | error e => rfl
    | ok st2 => simp only [Except.map]; exact ih st2

theorem doDataLoop_addPA {α E : Type} (intr : Except E Unit)
    (sampler : α → Option (List α)) (full : ℕ → Bool)
    (compute : List α → Except E (ℕ × ℕ)) (key : α → ℕ)
    (data : List (Except E (Option α))) (st : DoDataState α) (dp da : ℕ) :
    doDataLoop intr sampler full compute key (addPA st dp da) data =
      (doDataLoop intr sampler full compute key st data).map
        (fun st2 => addPA st2 dp da) := by
  induction data generalizing st with
  | nil => rfl
  | cons item rest ih =>
    cases intr with
    | error e => rfl
    | ok u =>
      cases u
      cases item with
      | error e => rfl
      | ok osample =>
        cases osample with
        | none =>
            rw [doDataLoop, doDataLoop]
            have heq : ({ addPA st dp da with errCount := (addPA st dp da).errCount + 1, sampleCount := (addPA st dp da).sampleCount + 1 } : DoDataState α) =
                addPA { st with errCount := st.errCount + 1, sampleCount := st.sampleCount + 1 } dp da := rfl
            rw [heq, ih]
        | some sample =>
          rw [doDataLoop, doDataLoop]
          cases hsp : sampler sample with
          | none =>
              simp only []
              have heq : ({ addPA st dp da with errCount := (addPA st dp da).errCount + 1, sampleCount := (addPA st dp da).sampleCount + 1 } : DoDataState α) =
                  addPA { st with errCount := st.errCount + 1, sampleCount := st.sampleCount + 1 } dp da := rfl
              rw [heq, ih]
          | some samples =>
            simp only []
            rw [processSamples_addPA]
            cases hps : processSamples full compute key st samples with
            | error e => simp only [Except.map]
            | ok st2 =>
                simp only [Except.map]
                have heq : ({ addPA st2 dp da with sampleCount := (addPA st2 dp da).sampleCount + 1 } : DoDataState α) =
                    addPA { st2 with sampleCount := st2.sampleCount + 1 } dp da :=
                  rfl
                rw [heq, ih]
                cases doDataLoop (Except.ok ()) sampler full compute key
                    ({ st2 with sampleCount := st2.sampleCount + 1 }) rest <;> rfl

theorem flushLoop_add {α E : Type} (compute : List α → Except E (ℕ × ℕ))
    (mbs : List (List α)) (p a c dp da : ℕ) :
    flushLoop compute mbs (p + dp) (a + da) c =
      (flushLoop compute mbs p a c).map
        (fun t => (t.1 + dp, t.2.1 + da, t.2.2)) := by
  induction mbs generalizing p a c with
  | nil => rfl
  | cons mb rest ih =>
    rw [flushLoop, flushLoop]
    cases hmb : mb.isEmpty with
    | true => simp only [if_true]; exact ih p a c
    | false =>
      simp only [Bool.false_eq_true, if_false]
      cases compute mb with
      | error e => rfl
      | ok pr =>
        cases pr with
        | mk tp oc =>
          simp only []
          have h1 : p + dp + tp = p + tp + dp := by omega
          have h2 : a + da + oc = a + oc + da := by omega
          rw [h1, h2, ih]

/-- C6: `Trainer::do_data` does not start its output counters from
zero: lines 58-59 initialise them with the Rust literal `064`, which is
the decimal number 64 (not the octal `0o64` or the typed zero `0u64`
the author plainly intended).  Part 1: on empty training data — an
epoch that computes no outputs — `do_data` and `do_epoch` report
`passes = 64` and `totals = 64`, where the claim demands `(0, 0)`.
Part 2: on every input, the code's result is exactly the claim's
sum-from-zero accumulation (`doDataSpec`) with both output components
shifted up by the spurious 64. -/
theorem trainer_doData_counters_start_at_64 :
    (∀ (α E : Type) (intr : Except E Unit) (sampler : α → Option (List α))
        (full : ℕ → Bool) (compute : List α → Except E (ℕ × ℕ)) (key : α → ℕ),
      doData intr sampler full compute key [] = .ok (64, 64, 0) ∧
      doEpoch intr sampler full compute key (.ok ()) [] = .ok (64, 64, 0)) ∧
    (∀ (α E : Type) (intr : Except E Unit) (sampler : α → Option (List α))
        (full : ℕ → Bool) (compute : List α → Except E (ℕ × ℕ)) (key : α → ℕ)
        (data : List (Except E (Option α))),
      doData intr sampler full compute key data =
        (doDataSpec intr sampler full compute key data).map
          (fun t => (t.1 + 64, t.2.1 + 64, t.2.2))) := by
  constructor
  · intro α E intr sampler full compute key
    exact ⟨rfl, rfl⟩
  · intro α E intr sampler full compute key data
    rw [doData, doDataSpec]
    have h0 : (⟨[], 0, 0, 0, 64, 64, 0⟩ : DoDataState α) =
        addPA ⟨[], 0, 0, 0, 0, 0, 0⟩ 64 64 := rfl
    rw [h0, doDataLoop_addPA]
    cases doDataLoop intr sampler full compute key ⟨[], 0, 0, 0, 0, 0, 0⟩ data with
    | error e => rfl
    | ok st =>
      simp only [Except.map]
      have hmb : (addPA st 64 64).minibatches = st.minibatches := rfl
      have hcm : (addPA st 64 64).computedMinibatchCount =
          st.computedMinibatchCount := rfl
      have hec : (addPA st 64 64).errCount = st.errCount := rfl
      have hp : (addPA st 64 64).passedOutputCount =
          st.passedOutputCount + 64 := rfl
      have ha : (addPA st 64 64).allOutputCount = st.allOutputCount + 64 := rfl
      rw [hmb, hcm, hec, hp, ha, flushLoop_add]
      cases flushLoop compute (st.minibatches.map Prod.snd)
          st.passedOutputCount st.allOutputCount st.computedMinibatchCount with
      | error e => rfl
      | ok t => rfl


/-! ## Evaluation constants (src/src/engine/eval.rs lines 11-28) -/

def MAX_EVAL_VALUE : ℤ := 32767

def MIN_EVAL_VALUE : ℤ := -32767

def MAX_EVAL_MATE_VALUE : ℤ := MAX_EVAL_VALUE - 384

def MIN_EVAL_MATE_VALUE : ℤ := MIN_EVAL_VALUE + 384

def MAX_EVAL_MIDDLE_MATE_VALUE : ℤ := MAX_EVAL_VALUE - 256

def MIN_EVAL_MIDDLE_MATE_VALUE : ℤ := MIN_EVAL_VALUE + 256

def MAX_EVAL_ROOT_MATE_VALUE : ℤ := MAX_EVAL_VALUE - 128

def MIN_EVAL_ROOT_MATE_VALUE : ℤ := MIN_EVAL_VALUE + 128

/-- The Rust cast `n as i32` from a `usize`: reduce modulo `2^32` and
reinterpret as two's complement. -/
def i32ofUsize (n : ℕ) : ℤ :=
  ((n % 2 ^ 32 : ℕ) : ℤ) - (if n % 2 ^ 32 < 2 ^ 31 then 0 else 2 ^ 32)

theorem i32ofUsize_small (n : ℕ) (h : n < 2 ^ 31) : i32ofUsize n = n := by
  have h32 : n % 2 ^ 32 = n := Nat.mod_eq_of_lt (by omega)
  rw [i32ofUsize, h32, if_pos h]
  omega

/-! ## MiddleSearcher (src/src/engine/middle_searcher.rs)

`nega_max_with_fun_ref` (lines 51-109) and `search` (lines 119-175) are
embedded below.  The chess primitives (`semilegal::gen_all`,
`Board::make_move`, `has_legal_moves`, `is_check`), the interruption
checker, the evaluation function and the neural searcher are external
trait objects or crate functions; they enter as function parameters,
bundled in `GameFns`.  `Board::make_move`'s `Result` is modelled as
`Option` since the searchers only branch on success.  The `&mut`
locals `current_pv`, `pvs`, `node_count`, `leaf_count` and the
closure's captured state become the explicitly threaded `NegaState`;
the leaf callback `f` becomes a state-passing function on the
`fState` component.  Rust's `pvs[ply] = ...` writes are modelled with
`List.set` / `List.getD` (in the searcher `ply` never exceeds
`middle_depth`, so the out-of-range cases are never hit). -/

/-- The external chess/interruption primitives used by the searchers. -/
structure GameFns (E B M : Type) where
  genAll : B → List M
  makeMove : B → M → Option B
  hasLegalMoves : B → Bool
  isCheck : B → Bool
  intrCheck : ℕ → Except E Unit

/-- The mutable state threaded through `nega_max_with_fun_ref`:
`current_pv`, `pvs`, `*node_count`, `*leaf_count`, and the state
captured by the leaf callback. -/
structure NegaState (M σ : Type) where
  currentPv : List M
  pvs : List (List M)
  nodeCount : ℕ
  leafCount : ℕ
  fState : σ

/-- Lines 54-56: check the interruption checker every
`NODE_COUNT_TO_INTR_CHECK = 1024` nodes, before the increment. -/
def checkedEntry {E B M σ : Type} (g : GameFns E B M) (st : NegaState M σ) :
    Except E Unit :=
  if st.nodeCount % 1024 = 0 then g.intrCheck st.nodeCount else .ok ()

/-- Lines 58-70: the `middle_depth <= 0` leaf case. -/
def negaLeaf {E B M σ : Type} (g : GameFns E B M)
    (f : B → List M → ℕ → σ → ℤ × σ) (board : B) (ply : ℕ)
    (st : NegaState M σ) : Except E (ℤ × Option ℕ × NegaState M σ) :=
  match checkedEntry g st with
  | .error e => .error e
  | .ok _ =>
    let st1 := { st with nodeCount := st.nodeCount + 1 }
    let leafIdx := st1.leafCount
    let st2 := { st1 with pvs := st1.pvs.set ply [] }
    if g.hasLegalMoves board then
      let vs := f board st2.currentPv leafIdx st2.fState
      .ok (vs.1, some leafIdx,
        { st2 with leafCount := st2.leafCount + 1, fState := vs.2 })
    else if g.isCheck board then
      .ok (MIN_EVAL_MIDDLE_MATE_VALUE, none, st2)
    else
      .ok (0, none, st2)

/-- Lines 77-98: the `for mv in &moves` loop, with accumulator
`(are_moves, best_value, best_leaf_idx, state)` and the recursive call
abstracted as `rec`. -/
def negaLoop {E B M σ : Type} (g : GameFns E B M)
    (rec : B → ℕ → NegaState M σ → Except E (ℤ × Option ℕ × NegaState M σ))
    (ply : ℕ) :
    List M → B → (Bool × ℤ × Option ℕ × NegaState M σ) →
      Except E (Bool × ℤ × Option ℕ × NegaState M σ)
  | [], _, acc => .ok acc
  | mv :: rest, board, (areMoves, best, bestLeaf, st) =>
    match g.makeMove board mv with
    | none => negaLoop g rec ply rest board (areMoves, best, bestLeaf, st)
    | some newBoard =>
      match rec newBoard (ply + 1)
          { st with currentPv := st.currentPv ++ [mv] } with
      | .error e => .error e
      | .ok (negValue, leafIdx, stA) =>
        let stB := { stA with currentPv := stA.currentPv.dropLast }
        let value := -negValue
        if best < value then
          negaLoop g rec ply rest board
            (true, value, leafIdx,
              { stB with pvs := stB.pvs.set ply (mv :: stB.pvs.getD (ply + 1) []) })
        else
          negaLoop g rec ply rest board (true, best, bestLeaf, stB)

/-- Lines 71-108: the `middle_depth > 0` inner-node case; `md1` is the
current `middle_depth` (used in the checkmate value as the `usize → i32`
cast on line 101). -/
def negaNode {E B M σ : Type} (g : GameFns E B M)
    (rec : B → ℕ → NegaState M σ → Except E (ℤ × Option ℕ × NegaState M σ))
    (md1 : ℕ) (board : B) (ply : ℕ) (st : NegaState M σ) :
    Except E (ℤ × Option ℕ × NegaState M σ) :=
  match checkedEntry g st with
  | .error e => .error e
  | .ok _ =>
    let st1 := { st with nodeCount := st.nodeCount + 1 }
    match negaLoop g rec ply (g.genAll board) board
        (false, MIN_EVAL_VALUE, none, st1) with
    | .error e => .error e
    | .ok (areMoves, best, bestLeaf, st2) =>
      if areMoves then .ok (best, bestLeaf, st2)
      else if g.isCheck board then
        .ok (MIN_EVAL_MIDDLE_MATE_VALUE - i32ofUsize md1, none, st2)
      else .ok (0, none, st2)

/-- `MiddleSearcher::nega_max_with_fun_ref` (lines 51-109), by
recursion on `middle_depth`. -/
def negaMax {E B M σ : Type} (g : GameFns E B M)
    (f : B → List M → ℕ → σ → ℤ × σ) :
    (md : ℕ) → B → ℕ → NegaState M σ → Except E (ℤ × Option ℕ × NegaState M σ)
  | 0 => negaLeaf g f
  | md + 1 => negaNode g (negaMax g f md) (md + 1)

/-- The Pass-1 leaf callback (lines 126-131): record the current PV in
`neural_pvs` and score the leaf 0. -/
def pass1Callback {B M : Type} :
    B → List M → ℕ → List (List M) → ℤ × List (List M) :=
  fun _ pv _ neuralPvs => (0, neuralPvs ++ [pv])

/-- The board walk of the Pass-2 leaf callback (lines 142-150): play
the recorded neural PV from the leaf board, stopping at the first
illegal move; returns the final board and the number of moves played
(`neural_ply`, which is also what the walk adds to
`neural_node_count`). -/
def rolloutWalk {E B M : Type} (g : GameFns E B M) :
    B → List M → ℕ → B × ℕ
  | b, [], n => (b, n)
  | b, mv :: rest, n =>
    match g.makeMove b mv with
    | none => (b, n)
    | some b2 => rolloutWalk g b2 rest (n + 1)

/-- The Pass-2 leaf callback (lines 140-169), with the captured
`neural_node_count` as its `ℕ` state. -/
def pass2Callback {E B M : Type} (g : GameFns E B M) (evalFun : B → ℤ)
    (neuralPvs : List (List M)) (middleDepth depth : ℕ) :
    B → List M → ℕ → ℕ → ℤ × ℕ :=
  fun newBoard _ leafIdx nCount =>
    let w := rolloutWalk g newBoard ((neuralPvs.getD leafIdx []).drop middleDepth) 0
    let value :=
      if g.hasLegalMoves w.1 then evalFun w.1
      else if g.isCheck w.1 then
        if 0 < w.2 then MIN_EVAL_MATE_VALUE - i32ofUsize (depth - middleDepth - w.2)
        else MIN_EVAL_MIDDLE_MATE_VALUE
      else 0
    (if w.2 % 2 = 0 then value else -value, nCount + w.2)

/-- `MiddleSearcher::search` (lines 119-175).  The second component of
the result records whether the Pass-2 neural rollout ran.  The neural
searcher (line 135) is the parameter `neuralSearchFn`, returning the
updated `neural_pvs`. -/
def middleSearch {E B M : Type} (g : GameFns E B M) (evalFun : B → ℤ)
    (neuralSearchFn : B → List (List M) → ℕ → Except E (List (List M)))
    (board : B) (middleDepth depth : ℕ) :
    Except E ((ℤ × ℕ × ℕ × List M) × Bool) :=
  match negaMax g pass1Callback middleDepth board 0
      ⟨[], List.replicate (middleDepth + 1) [], 1, 0, []⟩ with
  | .error e => .error e
  | .ok (value, _, st1) =>
    if value ≤ MIN_EVAL_MATE_VALUE ∨ MAX_EVAL_MATE_VALUE ≤ value ∨
        st1.fState.isEmpty = true then
      .ok ((value, st1.nodeCount, st1.nodeCount, st1.pvs.getD 0 []), false)
    else
      match neuralSearchFn board st1.fState (depth - middleDepth) with
      | .error e => .error e
      | .ok neuralPvs =>
        match negaMax g (pass2Callback g evalFun neuralPvs middleDepth depth)
            middleDepth board 0
            ⟨[], List.replicate (middleDepth + 1) [], st1.nodeCount + 1, 0, 0⟩ with
        | .error e => .error e
        | .ok (value2, leafIdx, st2) =>
          let nodeCount := st2.nodeCount + st2.fState
          match leafIdx with
          | some li =>
              .ok ((value2, st2.nodeCount, nodeCount, neuralPvs.getD li []), true)
          | none =>
              .ok ((value2, st2.nodeCount, nodeCount, st2.pvs.getD 0 []), true)

/-- The values Pass 1 can produce: 0 or outside the open middle-mate
band. -/
def inMiddleBand (v : ℤ) : Prop :=
  v = 0 ∨ v ≤ MIN_EVAL_MIDDLE_MATE_VALUE ∨ MAX_EVAL_MIDDLE_MATE_VALUE ≤ v

theorem inMiddleBand_neg {v : ℤ} (h : inMiddleBand v) : inMiddleBand (-v) := by
  rcases h with h | h | h <;>
    simp only [inMiddleBand, MIN_EVAL_MIDDLE_MATE_VALUE, MAX_EVAL_MIDDLE_MATE_VALUE,
      MIN_EVAL_VALUE, MAX_EVAL_VALUE] at * <;> omega

theorem inMiddleBand_zero : inMiddleBand 0 := Or.inl rfl

theorem inMiddleBand_min_eval : inMiddleBand MIN_EVAL_VALUE := by
  simp only [inMiddleBand, MIN_EVAL_MIDDLE_MATE_VALUE, MIN_EVAL_VALUE, MAX_EVAL_VALUE,
    MAX_EVAL_MIDDLE_MATE_VALUE]
  omega

theorem negaLoop_inBand {E B M σ : Type} (g : GameFns E B M)
    (rec : B → ℕ → NegaState M σ → Except E (ℤ × Option ℕ × NegaState M σ))
    (ply : ℕ)
    (hrec : ∀ b p s r, rec b p s = .ok r → inMiddleBand r.1)
    (moves : List M) :
    ∀ (board : B) (acc : Bool × ℤ × Option ℕ × NegaState M σ),
      inMiddleBand acc.2.1 →
      ∀ out, negaLoop g rec ply moves board acc = .ok out →
        inMiddleBand out.2.1 := by
  induction moves with
  | nil =>
    intro board acc hacc out hout
    rw [negaLoop] at hout
    cases hout
    exact hacc
  | cons mv rest ih =>
    intro board acc hacc out hout
    obtain ⟨areMoves, best, bestLeaf, st⟩ := acc
    rw [negaLoop] at hout
    cases hmk : g.makeMove board mv with
    | none =>
      rw [hmk] at hout
      simp only [] at hout
      exact ih board _ hacc out hout
    | some newBoard =>
      rw [hmk] at hout
      simp only [] at hout
      cases hrc : rec newBoard (ply + 1)
          { st with currentPv := st.currentPv ++ [mv] } with
      | error e => rw [hrc] at hout; cases hout
      | ok r =>
        rw [hrc] at hout
        obtain ⟨negValue, leafIdx, stA⟩ := r
        simp only [] at hout
        by_cases hlt : best < -negValue
        · rw [if_pos hlt] at hout
          refine ih board _ ?_ out hout
          exact inMiddleBand_neg (hrec _ _ _ _ hrc)
        · rw [if_neg hlt] at hout
          refine ih board _ ?_ out hout
          exact hacc

theorem negaMax_pass1_inBand {E B M : Type} (g : GameFns E B M) :
    ∀ md : ℕ, md < 2 ^ 31 →
      ∀ (board : B) (ply : ℕ) (st : NegaState M (List (List M)))
        (r : ℤ × Option ℕ × NegaState M (List (List M))),
        negaMax g pass1Callback md board ply st = .ok r → inMiddleBand r.1 := by
  intro md
  induction md with
  | zero =>
    intro _ board ply st r hr
    rw [negaMax, negaLeaf] at hr
    cases hck : checkedEntry g st with
    | error e => rw [hck] at hr; cases hr
    | ok u =>
      rw [hck] at hr
      simp only [] at hr
      by_cases hlegal : g.hasLegalMoves board = true
      · rw [if_pos hlegal] at hr
        cases hr
        exact inMiddleBand_zero
      · rw [if_neg hlegal] at hr
        by_cases hchk : g.isCheck board = true
        · rw [if_pos hchk] at hr
          cases hr
          exact Or.inr (Or.inl le_rfl)
        · rw [if_neg hchk] at hr
          cases hr
          exact inMiddleBand_zero
  | succ md ih =>
    intro hmd board ply st r hr
    rw [negaMax, negaNode] at hr
    cases hck : checkedEntry g st with
    | error e => rw [hck] at hr; cases hr
    | ok u =>
      rw [hck] at hr
      simp only [] at hr
      cases hloop : negaLoop g (negaMax g pass1Callback md) ply
          (g.genAll board) board
          (false, MIN_EVAL_VALUE, none,
            { st with nodeCount := st.nodeCount + 1 }) with
      | error e => rw [hloop] at hr; cases hr
      | ok acc =>
        rw [hloop] at hr
        obtain ⟨areMoves, best, bestLeaf, st2⟩ := acc
        have hband := negaLoop_inBand g (negaMax g pass1Callback md) ply
          (fun b p s r2 => ih (by omega) b p s r2) (g.genAll board) board
          (false, MIN_EVAL_VALUE, none,
            { st with nodeCount := st.nodeCount + 1 })
          inMiddleBand_min_eval _ hloop
        simp only [] at hr hband
        by_cases ham : areMoves = true
        · rw [if_pos ham] at hr
          cases hr
          exact hband
        · rw [if_neg ham] at hr
          by_cases hchk : g.isCheck board = true
          · rw [if_pos hchk] at hr
            cases hr
            rw [i32ofUsize_small (md + 1) hmd]
            simp only [inMiddleBand, MIN_EVAL_MIDDLE_MATE_VALUE,
              MAX_EVAL_MIDDLE_MATE_VALUE, MIN_EVAL_VALUE, MAX_EVAL_VALUE]
            omega
          · rw [if_neg hchk] at hr
            cases hr
            exact inMiddleBand_zero

/-- A trivial one-position game used to instantiate the searcher: no
moves, no check, never interrupted. -/
def trivGame : GameFns Unit Unit Unit :=
  ⟨fun _ => [], fun _ _ => none, fun _ => false, fun _ => false, fun _ => .ok ()⟩

/-- C5: `MiddleSearcher::search` runs the Pass-2 neural rollout if and
only if Pass 1's best value lies strictly inside the middle-mate band
(`MIN_EVAL_MIDDLE_MATE_VALUE < v < MAX_EVAL_MIDDLE_MATE_VALUE`, i.e.
−32511 < v < 32511) and the recorded leaf list (`neural_pvs`) is
nonempty; otherwise it returns Pass 1's value with the middle node
count as the total node count and the middle-pass PV, and the neural
searcher is not invoked.  The source guard on line 132 actually tests
the wider MATE band (±32383), but Pass 1 scores every recorded leaf 0,
so its value is 0 or outside the MIDDLE band (`negaMax_pass1_inBand`),
and on every reachable value the two guards agree. -/
theorem middleSearcher_runs_pass2_iff_middle_band {E B M : Type}
    (g : GameFns E B M) (evalFun : B → ℤ)
    (neuralSearchFn : B → List (List M) → ℕ → Except E (List (List M)))
    (board : B) (middleDepth depth : ℕ) (v1 : ℤ) (li1 : Option ℕ)
    (st1 : NegaState M (List (List M)))
    (hmd : middleDepth < 2 ^ 31)
    (hp1 : negaMax g pass1Callback middleDepth board 0
      ⟨[], List.replicate (middleDepth + 1) [], 1, 0, []⟩ = .ok (v1, li1, st1)) :
    (middleSearch g evalFun neuralSearchFn board middleDepth depth =
        .ok ((v1, st1.nodeCount, st1.nodeCount, st1.pvs.getD 0 []), false) ↔
      ¬(MIN_EVAL_MIDDLE_MATE_VALUE < v1 ∧ v1 < MAX_EVAL_MIDDLE_MATE_VALUE ∧
        st1.fState ≠ [])) ∧
    (∀ res, middleSearch g evalFun neuralSearchFn board middleDepth depth =
        .ok (res, true) →
      MIN_EVAL_MIDDLE_MATE_VALUE < v1 ∧ v1 < MAX_EVAL_MIDDLE_MATE_VALUE ∧
        st1.fState ≠ []) := by
  have hband : inMiddleBand v1 :=
    negaMax_pass1_inBand g middleDepth hmd board 0 _ _ hp1
  rw [middleSearch, hp1]
  simp only []
  by_cases hg : v1 ≤ MIN_EVAL_MATE_VALUE ∨ MAX_EVAL_MATE_VALUE ≤ v1 ∨
      st1.fState.isEmpty = true
  · rw [if_pos hg]
    constructor
    · constructor
      · intro _
        rintro ⟨h1, h2, h3⟩
        rcases hg with hg | hg | hg
        · rcases hband with hb | hb | hb <;>
            simp only [MIN_EVAL_MIDDLE_MATE_VALUE, MAX_EVAL_MIDDLE_MATE_VALUE,
              MIN_EVAL_MATE_VALUE, MIN_EVAL_VALUE, MAX_EVAL_VALUE] at h1 h2 hg hb <;>
            omega
        · rcases hband with hb | hb | hb <;>
            simp only [MIN_EVAL_MIDDLE_MATE_VALUE, MAX_EVAL_MIDDLE_MATE_VALUE,
              MAX_EVAL_MATE_VALUE, MIN_EVAL_VALUE, MAX_EVAL_VALUE] at h1 h2 hg hb <;>
            omega
        · exact h3 (List.isEmpty_iff.mp hg)
      · intro _
        rfl
    · intro res hres
      simp only [Except.ok.injEq, Prod.mk.injEq] at hres
      exact absurd hres.2 (by decide)
  · rw [if_neg hg]
    push_neg at hg
    have hne : st1.fState ≠ [] := by
      intro hnil
      exact absurd (by rw [hnil]; rfl) hg.2.2
    have hcg : MIN_EVAL_MIDDLE_MATE_VALUE < v1 ∧ v1 < MAX_EVAL_MIDDLE_MATE_VALUE ∧
        st1.fState ≠ [] := by
      refine ⟨?_, ?_, hne⟩ <;>
        · rcases hband with hb | hb | hb <;>
            simp only [MIN_EVAL_MIDDLE_MATE_VALUE, MAX_EVAL_MIDDLE_MATE_VALUE,
              MIN_EVAL_MATE_VALUE, MAX_EVAL_MATE_VALUE, MIN_EVAL_VALUE,
              MAX_EVAL_VALUE] at *
          <;> omega
    constructor
    · constructor
      · intro heq
        exfalso
        cases hns : neuralSearchFn board st1.fState (depth - middleDepth) with
        | error e => rw [hns] at heq; cases heq
        | ok nps =>
          rw [hns] at heq
          simp only [] at heq
          cases hn2 : negaMax g (pass2Callback g evalFun nps middleDepth depth)
              middleDepth board 0
              ⟨[], List.replicate (middleDepth + 1) [], st1.nodeCount + 1, 0, 0⟩ with
          | error e => rw [hn2] at heq; cases heq
          | ok r2 =>
            rw [hn2] at heq
            obtain ⟨v2, li2, st2⟩ := r2
            simp only [] at heq
            cases li2 with
            | none =>
              simp only [Except.ok.injEq, Prod.mk.injEq] at heq
              exact absurd heq.2 (by decide)
            | some li =>
              simp only [Except.ok.injEq, Prod.mk.injEq] at heq
              exact absurd heq.2 (by decide)
      · intro hn
        exact absurd hcg hn
    · intro res _
      exact hcg

/-- C5 witness: the trivial game at middle depth 0 — Pass 1 returns
value 0 with an empty leaf list, so the searcher takes the early
return. -/
theorem middleSearcher_runs_pass2_iff_middle_band_witness :
    ((0 : ℕ) < 2 ^ 31 ∧
      negaMax trivGame pass1Callback 0 () 0
        ⟨[], List.replicate 1 [], 1, 0, []⟩ =
        .ok (0, none,
          (⟨[], [[]], 2, 0, []⟩ : NegaState Unit (List (List Unit))))) ∧
    ((middleSearch trivGame (fun _ => 0) (fun _ nps _ => .ok nps) () 0 0 =
        .ok ((0, 2, 2, ([] : List Unit)), false) ↔
      ¬(MIN_EVAL_MIDDLE_MATE_VALUE < (0 : ℤ) ∧
        (0 : ℤ) < MAX_EVAL_MIDDLE_MATE_VALUE ∧
        ([] : List (List Unit)) ≠ [])) ∧
    (∀ res, middleSearch trivGame (fun _ => 0) (fun _ nps _ => .ok nps) () 0 0 =
        .ok (res, true) →
      MIN_EVAL_MIDDLE_MATE_VALUE < (0 : ℤ) ∧
        (0 : ℤ) < MAX_EVAL_MIDDLE_MATE_VALUE ∧
        ([] : List (List Unit)) ≠ [])) :=
  ⟨⟨by decide, rfl⟩,
    middleSearcher_runs_pass2_iff_middle_band trivGame (fun _ => 0)
      (fun _ nps _ => .ok nps) () 0 0 0 none
      (⟨[], [[]], 2, 0, []⟩ : NegaState Unit (List (List Unit)))
      (by decide) rfl⟩

/-! ## OneSearcher (src/src/engine/one_searcher.rs lines 41-110)

`MoveChain` comes from the chess crate.  Modelled from the spec: a
move chain holds the played moves with their board history and a
cached outcome; `push` appends a move on success and leaves the chain
unchanged on failure, `pop` removes the last move and restores the
previous board, `set_auto_outcome` computes an outcome from the
current position and stores it, and `clear_outcome` clears it — none
of the outcome operations touch the move sequence.  The outcome's
payloads (win side, draw kind) play no role here and are dropped. -/

inductive ChainOutcome : Type where
  | win : ChainOutcome
  | draw : ChainOutcome

structure MoveChain (B M : Type) where
  stack : List B
  board : B
  moves : List M
  outcome : Option ChainOutcome

def MoveChain.push {E B M : Type} (g : GameFns E B M) (ch : MoveChain B M)
    (mv : M) : Option (MoveChain B M) :=
  match g.makeMove ch.board mv with
  | none => none
  | some b2 => some ⟨ch.stack ++ [ch.board], b2, ch.moves ++ [mv], ch.outcome⟩

def MoveChain.pop {B M : Type} (ch : MoveChain B M) : MoveChain B M :=
  ⟨ch.stack.dropLast, ch.stack.getLast?.getD ch.board, ch.moves.dropLast,
    ch.outcome⟩

def MoveChain.setAutoOutcome {B M : Type}
    (autoOut : B → Option ChainOutcome) (ch : MoveChain B M) :
    Option ChainOutcome × MoveChain B M :=
  (autoOut ch.board, { ch with outcome := autoOut ch.board })

def MoveChain.clearOutcome {B M : Type} (ch : MoveChain B M) : MoveChain B M :=
  { ch with outcome := none }

/-- Lines 60-68: a move is searched when there is no restriction or it
occurs in `search_moves`. -/
def inSearchMoves {M : Type} [DecidableEq M]
    (searchMoves : Option (List M)) (mv : M) : Bool :=
  match searchMoves with
  | some sm => decide (mv ∈ sm)
  | none => true

/-- Lines 59-108: the `for mv in &moves` loop of `OneSearcher::search`,
with accumulator `(best_value, pv, middle_node_count, node_count)` and
the middle searcher abstracted as `middleSearchFn` (it receives only
`move_chain.last()`, a board, so it cannot touch the chain).  The
result pairs the completed accumulator — or the propagated
interruption of line 101 — with the final move chain. -/
def oneSearchLoop {E B M : Type} [DecidableEq M] (g : GameFns E B M)
    (autoOut : B → Option ChainOutcome)
    (middleSearchFn : B → ℕ → ℕ → Except E (ℤ × ℕ × ℕ × List M))
    (middleDepth depth : ℕ) (searchMoves : Option (List M)) :
    List M → (ℤ × List M × ℕ × ℕ) → MoveChain B M →
      Except E (ℤ × List M × ℕ × ℕ) × MoveChain B M
  | [], acc, ch => (.ok acc, ch)
  | mv :: rest, (best, pv, mnc, nc), ch =>
    if inSearchMoves searchMoves mv then
      match MoveChain.push g ch mv with
      | none =>
          oneSearchLoop g autoOut middleSearchFn middleDepth depth searchMoves
            rest (best, pv, mnc, nc) ch
      | some ch2 =>
        match MoveChain.setAutoOutcome autoOut ch2 with
        | (some oc, ch3) =>
          let value : ℤ := match oc with
            | .win => MAX_EVAL_MIDDLE_MATE_VALUE
            | .draw => 0
          let acc2 := if best ≤ value then (value, [mv], mnc, nc + 1)
            else (best, pv, mnc, nc + 1)
          oneSearchLoop g autoOut middleSearchFn middleDepth depth searchMoves
            rest acc2 ch3.pop
        | (none, ch3) =>
          match middleSearchFn ch3.board middleDepth (depth - 1) with
          | .ok (negValue, tmnc, tnc, tpv) =>
            let value := -negValue
            let acc2 := if best ≤ value then
                (value, mv :: tpv, mnc + tmnc, nc + tnc)
              else (best, pv, mnc + tmnc, nc + tnc)
            oneSearchLoop g autoOut middleSearchFn middleDepth depth searchMoves
              rest acc2 ch3.pop
          | .error e => (.error e, ch3.pop)
    else
      oneSearchLoop g autoOut middleSearchFn middleDepth depth searchMoves
        rest (best, pv, mnc, nc) ch

/-- `OneSearcher::search` (lines 41-110), returning the result together
with the final move chain. -/
def oneSearch {E B M : Type} [DecidableEq M] (g : GameFns E B M)
    (autoOut : B → Option ChainOutcome)
    (middleSearchFn : B → ℕ → ℕ → Except E (ℤ × ℕ × ℕ × List M))
    (middleDepth : ℕ) (ch : MoveChain B M) (depth : ℕ)
    (searchMoves : Option (List M)) :
    Except E (ℤ × ℕ × ℕ × List M) × MoveChain B M :=
  let moves := g.genAll ch.board
  match MoveChain.setAutoOutcome autoOut ch with
  | (some oc, ch2) =>
    let value : ℤ := match oc with
      | .win => MIN_EVAL_ROOT_MATE_VALUE
      | .draw => 0
    (.ok (value, 1, 1, []), ch2)
  | (none, ch2) =>
    match oneSearchLoop g autoOut middleSearchFn middleDepth depth searchMoves
        moves (MIN_EVAL_VALUE, [], 1, 1) ch2.clearOutcome with
    | (.ok (best, pv, mnc, nc), ch4) => (.ok (best, mnc, nc, pv), ch4)
    | (.error e, ch4) => (.error e, ch4)

theorem oneSearchLoop_preserves_moves {E B M : Type} [DecidableEq M]
    (g : GameFns E B M) (autoOut : B → Option ChainOutcome)
    (middleSearchFn : B → ℕ → ℕ → Except E (ℤ × ℕ × ℕ × List M))
    (middleDepth depth : ℕ) (searchMoves : Option (List M))
    (moves : List M) :
    ∀ (acc : ℤ × List M × ℕ × ℕ) (ch : MoveChain B M),
      (oneSearchLoop g autoOut middleSearchFn middleDepth depth searchMoves
        moves acc ch).2.moves = ch.moves := by
  induction moves with
  | nil => intro acc ch; rfl
  | cons mv rest ih =>
    intro acc ch
    obtain ⟨best, pv, mnc, nc⟩ := acc
    rw [oneSearchLoop]
    cases hsm : inSearchMoves searchMoves mv with
    | false =>
      rw [if_neg (by simp)]
      exact ih _ ch
    | true =>
      rw [if_pos rfl]
      cases hpush : MoveChain.push g ch mv with
        | none => exact ih _ ch
        | some ch2 =>
          simp only []
          have hmv2 : ch2.moves = ch.moves ++ [mv] := by
            rw [MoveChain.push] at hpush
            cases hmk : g.makeMove ch.board mv with
            | none => rw [hmk] at hpush; cases hpush
            | some b2 =>
              rw [hmk] at hpush
              cases hpush
              rfl
          rw [MoveChain.setAutoOutcome]
          cases hao : autoOut ch2.board with
          | some oc =>
            simp only []
            rw [ih]
            simp only [MoveChain.pop, hmv2]
            exact List.dropLast_concat ..
          | none =>
            simp only []
            cases hms : middleSearchFn ch2.board middleDepth (depth - 1) with
            | ok r =>
              obtain ⟨negValue, tmnc, tnc, tpv⟩ := r
              simp only []
              rw [ih]
              simp only [MoveChain.pop, hmv2]
              exact List.dropLast_concat ..
            | error e =>
              simp only []
              simp only [MoveChain.pop, hmv2]
              exact List.dropLast_concat ..

/-- C10: for every move chain, depth and optional search-move
restriction, `OneSearcher::search` returns with the chain's move
sequence exactly as it was on entry, on every path: the checkmate /
stalemate early return only sets the outcome; in the loop every
successful `push` of a root move is matched by a `pop` before the next
iteration, and on the interruption path of lines 99-102 the trial move
is popped before the error is propagated. -/
theorem oneSearcher_preserves_move_chain {E B M : Type} [DecidableEq M]
    (g : GameFns E B M) (autoOut : B → Option ChainOutcome)
    (middleSearchFn : B → ℕ → ℕ → Except E (ℤ × ℕ × ℕ × List M))
    (middleDepth : ℕ) (ch : MoveChain B M) (depth : ℕ)
    (searchMoves : Option (List M)) :
    (oneSearch g autoOut middleSearchFn middleDepth ch depth
      searchMoves).2.moves = ch.moves := by
  rw [oneSearch, MoveChain.setAutoOutcome]
  cases hao : autoOut ch.board with
  | some oc => rfl
  | none =>
    simp only []
    have hloop := oneSearchLoop_preserves_moves g autoOut middleSearchFn
      middleDepth depth searchMoves (g.genAll ch.board)
      (MIN_EVAL_VALUE, [], 1, 1)
      ({ ch with outcome := none } : MoveChain B M).clearOutcome
    cases hres : oneSearchLoop g autoOut middleSearchFn middleDepth depth
        searchMoves (g.genAll ch.board) (MIN_EVAL_VALUE, [], 1, 1)
        ({ ch with outcome := none } : MoveChain B M).clearOutcome with
    | mk r ch4 =>
      rw [hres] at hloop
      cases r with
      | ok acc =>
        obtain ⟨best, pv, mnc, nc⟩ := acc
        exact hloop
      | error e => exact hloop

end Neurina
